import Mathlib

/-!
# Verification of the repo-retriever-ai core against its specification

Shallow embedding of the two source files of the repository:

* `src/services/GitHubService.ts` — URL parsing (`parseRepoUrl`), inclusion
  filtering (`isTextFile`, `shouldIncludeFile`);
* the unnamed source file (`src/unnamed/part_000`) containing the
  `FileTreeSelector` component (`buildTree`) and the `RepoAnalyzer` component
  (`fetchRepository`'s filter, `generateOutput`, `getFileExtension`).

JavaScript strings are modeled as `List Char` (`String.data`); JS string
primitives (`split`, `join`, `toLowerCase`, `endsWith`, `includes`, template
concatenation) become the corresponding list operations.  The asynchronous,
effectful `generateOutput` is modeled as a pure function parameterized by the
content-fetch collaborator, emitting an explicit event trace (fetch calls,
progress updates, rate-limit delays) in program order.  `new Date()` is a
collaborator parameter.  JS floating-point progress arithmetic is modeled
exactly over `ℚ`.  `localeCompare` ordering is modeled as code-point
lexicographic comparison.
-/

namespace RepoRetriever

/-- The `type` field of a GitHub tree entry: the string union `'file' | 'dir'`
(GitHubService.ts line 10). -/
inductive EType where
  | file
  | dir
deriving DecidableEq

/-- `GitHubFile` (GitHubService.ts lines 1–13).  Only the fields read by the
embedded code are modeled: `name`, `path`, `type`.  The remaining fields
(`sha`, `size`, the URL fields, `content`, `encoding`) are never consulted by
`buildTree`, the inclusion filter, or `generateOutput`. -/
structure GitHubFile where
  name : List Char
  path : List Char
  type : EType
deriving DecidableEq

/-- `RepoInfo` (GitHubService.ts lines 22–26).  `parseRepoUrl` always fills
`branch` (`match[3] || 'main'`), so it is modeled as non-optional. -/
structure RepoInfo where
  owner : List Char
  repo : List Char
  branch : List Char
deriving DecidableEq

/-! ## JS string primitives -/

/-- JS `String.prototype.split` with a single-character separator:
`''.split(c) = ['']`, `'a/b'.split('/') = ['a','b']`, `'/a'.split('/') =
['','a']`, `'a/'.split('/') = ['a','']`. -/
def splitOnChar (sep : Char) : List Char → List (List Char)
  | [] => [[]]
  | c :: rest =>
    if c = sep then [] :: splitOnChar sep rest
    else
      match splitOnChar sep rest with
      | [] => [[c]]
      | g :: gs => (c :: g) :: gs

/-- JS `String.prototype.includes`: substring (infix) test, via Mathlib's
decidable `<:+:`. -/
def containsSeg (pat s : List Char) : Bool := decide (pat <:+: s)

/-- JS `Array.prototype.join('/')` (used for `parts.slice(0, index).join('/')`
in `buildTree`): `[] ↦ ''`, `[a] ↦ a`, `[a,b,…] ↦ a ++ '/' ++ …`. -/
def joinSegs : List (List Char) → List Char
  | [] => []
  | [a] => a
  | a :: b :: rest => a ++ '/' :: joinSegs (b :: rest)

/-- JS `String.prototype.toLowerCase`, restricted to per-character lowering
(faithful on the ASCII file names and extensions this code deals with). -/
def lowerStr (s : List Char) : List Char := s.map Char.toLower

/-- Boolean comparator modelling `a.localeCompare(b) ≤ 0` as code-point
lexicographic comparison (the sort key used by `buildTree` line 30). -/
def charListLe : List Char → List Char → Bool
  | [], _ => true
  | _ :: _, [] => false
  | a :: as, b :: bs => if a < b then true else if b < a then false else charListLe as bs

/-- Strict version of `charListLe`. -/
def charListLt : List Char → List Char → Bool
  | [], [] => false
  | [], _ :: _ => true
  | _ :: _, [] => false
  | a :: as, b :: bs => if a < b then true else if b < a then false else charListLt as bs

/-! ## `GitHubService.parseRepoUrl` (GitHubService.ts lines 44–61)

The first pattern `/github\.com\/([^\/]+)\/([^\/]+)(?:\/tree\/([^\/]+))?/` is
unanchored: `String.match` finds the leftmost position where the literal
`github.com/` is followed by a nonempty slash-free run (group 1), a `/`, and a
nonempty slash-free run (group 2); the optional `(?:\/tree\/([^\/]+))?` then
matches greedily right after group 2 when it can.  Since `[^\/]+` can never
cross a `/`, the greedy groups are determined by the next `/`, so the regex
semantics is captured by the deterministic matcher below.  The second pattern
`/^([^\/]+)\/([^\/]+)$/` is anchored: exactly one `/` with nonempty sides. -/

/-- The literal `github.com/` of the first regex. -/
def ghLit : List Char := "github.com/".data

/-- The literal `/tree/` of the optional group of the first regex. -/
def treeLit : List Char := "/tree/".data

/-- Attempt to match the first regex at the start of `s`, returning
`(group1, group2, group3?)`. -/
def matchGithubAt (s : List Char) : Option (List Char × List Char × Option (List Char)) :=
  if ghLit.isPrefixOf s then
    let rest := s.drop ghLit.length
    let g1 := rest.takeWhile (fun c => c != '/')
    if g1.isEmpty then none
    else
      match rest.drop g1.length with
      | c :: rest2 =>
        if c = '/' then
          let g2 := rest2.takeWhile (fun c => c != '/')
          if g2.isEmpty then none
          else
            let rest3 := rest2.drop g2.length
            let g3 :=
              if treeLit.isPrefixOf rest3 then
                let t := (rest3.drop treeLit.length).takeWhile (fun c => c != '/')
                if t.isEmpty then none else some t
              else none
            some (g1, g2, g3)
        else none
      | [] => none
  else none

/-- Leftmost match of the first (unanchored) regex: try every start position
left to right, as `String.prototype.match` does. -/
def matchGithub : List Char → Option (List Char × List Char × Option (List Char))
  | [] => matchGithubAt []
  | c :: rest => (matchGithubAt (c :: rest)).orElse (fun _ => matchGithub rest)

/-- The second, anchored pattern `/^([^\/]+)\/([^\/]+)$/`. -/
def matchBare (s : List Char) : Option (List Char × List Char) :=
  let g1 := s.takeWhile (fun c => c != '/')
  if g1.isEmpty then none
  else
    match s.drop g1.length with
    | c :: rest =>
      if c = '/' then
        if rest.isEmpty then none
        else if rest.all (fun c => c != '/') then some (g1, rest) else none
      else none
    | [] => none

/-- `match[2].replace(/\.git$/, '')` (GitHubService.ts line 55): drop a single
trailing `.git`. -/
def stripDotGit (r : List Char) : List Char :=
  if ".git".data.isSuffixOf r then r.take (r.length - 4) else r

/-- `GitHubService.parseRepoUrl` (GitHubService.ts lines 44–61): try the two
patterns in order; on a match return `{owner, repo (with trailing ".git"
stripped), branch: match[3] || 'main'}`; otherwise `null`. -/
def parseRepoUrl (url : List Char) : Option RepoInfo :=
  match matchGithub url with
  | some (o, r, b) => some ⟨o, stripDotGit r, b.getD "main".data⟩
  | none =>
    match matchBare url with
    | some (o, r) => some ⟨o, stripDotGit r, "main".data⟩
    | none => none

/-! ## Inclusion filtering (GitHubService.ts lines 109–154) -/

/-- The static allow-list `textExtensions` (GitHubService.ts lines 110–118). -/
def textExtensions : List (List Char) :=
  [".js".data, ".jsx".data, ".ts".data, ".tsx".data, ".json".data, ".md".data,
   ".txt".data, ".yml".data, ".yaml".data,
   ".html".data, ".htm".data, ".css".data, ".scss".data, ".sass".data,
   ".less".data, ".xml".data, ".svg".data,
   ".py".data, ".java".data, ".c".data, ".cpp".data, ".h".data, ".hpp".data,
   ".cs".data, ".php".data, ".rb".data,
   ".go".data, ".rs".data, ".swift".data, ".kt".data, ".scala".data,
   ".sh".data, ".bash".data, ".zsh".data,
   ".sql".data, ".r".data, ".matlab".data, ".m".data, ".pl".data, ".lua".data,
   ".dart".data, ".vue".data,
   ".toml".data, ".ini".data, ".cfg".data, ".conf".data, ".env".data,
   ".gitignore".data, ".dockerignore".data,
   "Dockerfile".data, "README".data, "LICENSE".data, "CHANGELOG".data]

/-- `GitHubService.isTextFile` (GitHubService.ts lines 109–126):
`lowerName.endsWith(ext) || lowerName === ext.slice(1) ||
(ext.startsWith('.') && lowerName.includes(ext))`. -/
def isTextFile (filename : List Char) : Bool :=
  let lowerName := lowerStr filename
  textExtensions.any fun ext =>
    ext.isSuffixOf lowerName || lowerName == ext.drop 1 ||
      (ext.take 1 == ['.'] && containsSeg ext lowerName)

/-- Whether some deny-list pattern of `shouldIncludeFile` (GitHubService.ts
lines 129–151) matches `path`.  Each regex is either a plain substring match
(`/node_modules/`, `/\.git/`, …; `/logs?/` matches exactly when `log` occurs
as a substring) or a `$`-anchored suffix match (`/\.log$/`, `/\.lock$/`, the
four lockfiles). -/
def excludeMatches (path : List Char) : Bool :=
  containsSeg "node_modules".data path ||
  containsSeg ".git".data path ||
  containsSeg ".DS_Store".data path ||
  containsSeg ".vscode".data path ||
  containsSeg ".idea".data path ||
  containsSeg "dist".data path ||
  containsSeg "build".data path ||
  containsSeg "out".data path ||
  containsSeg "target".data path ||
  containsSeg "bin".data path ||
  containsSeg "obj".data path ||
  containsSeg ".next".data path ||
  containsSeg "coverage".data path ||
  containsSeg ".nyc_output".data path ||
  containsSeg "log".data path ||
  ".log".data.isSuffixOf path ||
  ".lock".data.isSuffixOf path ||
  "package-lock.json".data.isSuffixOf path ||
  "yarn.lock".data.isSuffixOf path ||
  "pnpm-lock.yaml".data.isSuffixOf path ||
  "bun.lockb".data.isSuffixOf path

/-- `GitHubService.shouldIncludeFile` (GitHubService.ts lines 128–154):
`!excludePatterns.some(pattern => pattern.test(path))`. -/
def shouldIncludeFile (path : List Char) : Bool :=
  !(excludeMatches path)

/-- The eligibility filter of `fetchRepository` (src/unnamed/part_000 lines
220–224): `tree.tree.filter(file => file.type === 'file' &&
isTextFile(file.name) && shouldIncludeFile(file.path))`. -/
def filterTextFiles (tree : List GitHubFile) : List GitHubFile :=
  tree.filter fun file =>
    decide (file.type = EType.file) && isTextFile file.name && shouldIncludeFile file.path

/-! ## `buildTree` (`FileTreeSelector`, src/unnamed/part_000 lines 25–65)

The JS function keeps a `Map<string, TreeNode>` from full paths to mutable
node objects plus a `root` array; `parentNode.children.push(node)` mutates a
node that is aliased from the map, its parent's `children`, or `root`.  The
embedding therefore keeps the node registry explicit: `children` stores the
child *paths* in push order, and the returned nested `TreeNode` structure is
materialized from the registry at the end.  The registry entries are exactly
the nodes of the returned forest (each one is reachable: it is put in `root`
at `index === 0` and pushed onto its parent's `children` otherwise). -/

/-- The data of one JS `TreeNode` object, with `children` as the list of child
paths in push order. -/
structure NodeData where
  name : List Char
  type : EType
  children : List (List Char)
  file : Option GitHubFile
deriving DecidableEq

/-- The mutable state of `buildTree`: the `root` array (as a list of paths)
and the `nodeMap` registry in insertion order. -/
structure BuildState where
  root : List (List Char)
  nodeMap : List (List Char × NodeData)
deriving DecidableEq

/-- `Map.get`/`Map.has`: first-match lookup in the registry (keys are unique,
since `set` is guarded by `has`). -/
def mapLookup (m : List (List Char × NodeData)) (p : List Char) : Option NodeData :=
  match m with
  | [] => none
  | (q, d) :: rest => if q = p then some d else mapLookup rest p

/-- `parentNode.children.push(node)`: append `child` to the children of the
entry keyed `parent` (a no-op when the key is absent, matching the
`if (parentNode)` guard). -/
def pushChild (m : List (List Char × NodeData)) (parent child : List Char) :
    List (List Char × NodeData) :=
  m.map fun kv => if kv.1 = parent then (kv.1, { kv.2 with children := kv.2.children ++ [child] }) else kv

/-- `currentPath = currentPath ? currentPath + '/' + part : part` (line 38);
the empty string is falsy in JS. -/
def stepPath (cur part : List Char) : List Char :=
  if cur = [] then part else cur ++ '/' :: part

/-- The body of `parts.forEach((part, index) => …)` (lines 40–60) for one
`(part, index)` pair with `currentPath` already updated: if the path is not
registered, create the node (a file node exactly when this is the last
segment and the entry's type is `file`), register it, and attach it to `root`
(at index 0) or to its parent `parts.slice(0, index).join('/')`. -/
def insertStep (file : GitHubFile) (parts : List (List Char)) (index : Nat)
    (currentPath : List Char) (st : BuildState) : BuildState :=
  if (mapLookup st.nodeMap currentPath).isSome then st
  else
    let node : NodeData :=
      { name := parts.getD index []
        type := if index = parts.length - 1 ∧ file.type = EType.file then EType.file else EType.dir
        children := []
        file := if index = parts.length - 1 ∧ file.type = EType.file then some file else none }
    let st2 : BuildState := { st with nodeMap := st.nodeMap ++ [(currentPath, node)] }
    if index = 0 then { st2 with root := st2.root ++ [currentPath] }
    else { st2 with nodeMap := pushChild st2.nodeMap (joinSegs (parts.take index)) currentPath }

/-- The `parts.forEach` loop (lines 36–61), iterating over the remaining
segments with the running `index` and `currentPath`. -/
def goParts (file : GitHubFile) (parts : List (List Char)) :
    List (List Char) → Nat → List Char → BuildState → BuildState
  | [], _, _, st => st
  | part :: rest, index, cur, st =>
    goParts file parts rest (index + 1) (stepPath cur part)
      (insertStep file parts index (stepPath cur part) st)

/-- Processing of one entry inside `sortedFiles.forEach(file => …)` (lines
32–62): split the path on `/` and run the segment loop from `index = 0`,
`currentPath = ''`. -/
def processEntry (st : BuildState) (file : GitHubFile) : BuildState :=
  let parts := splitOnChar '/' file.path
  goParts file parts parts 0 [] st

/-- `[...files].sort((a, b) => a.path.localeCompare(b.path))` (line 30):
a stable sort by path. -/
def sortFiles (files : List GitHubFile) : List GitHubFile :=
  files.insertionSort fun a b => charListLe a.path b.path

/-- The registry-and-roots phase of `buildTree` (lines 25–62). -/
def buildTreeState (files : List GitHubFile) : BuildState :=
  (sortFiles files).foldl processEntry { root := [], nodeMap := [] }

/-- The nested `TreeNode` structure returned by `buildTree` (lines 14–20). -/
inductive TreeNode where
  | node (name : List Char) (path : List Char) (type : EType)
      (children : List TreeNode) (file : Option GitHubFile)

/-- The `type` field of a materialized node. -/
def TreeNode.etype : TreeNode → EType
  | .node _ _ t _ _ => t

/-- Materialize the nodes for a list of paths from the registry, resolving
`children` recursively.  `fuel` only bounds the recursion depth; child paths
are strictly longer than their parent's, so `nodeMap.length + 1` is always
enough. -/
def buildNodes (m : List (List Char × NodeData)) :
    Nat → List (List Char) → List TreeNode
  | 0, _ => []
  | fuel + 1, ps =>
    ps.foldr
      (fun p acc =>
        (match mapLookup m p with
         | none => []
         | some d =>
           [TreeNode.node d.name p d.type (buildNodes m fuel d.children) d.file]) ++ acc)
      []

/-- `buildTree` (lines 25–65): sort, build registry and roots, return the
root nodes (the full tree is reachable through `children`). -/
def buildTree (files : List GitHubFile) : List TreeNode :=
  let st := buildTreeState files
  buildNodes st.nodeMap (st.nodeMap.length + 1) st.root

/-! ## `generateOutput` (`RepoAnalyzer`, src/unnamed/part_000 lines 247–310)
and `getFileExtension` (lines 312–343)

The effectful pieces are modeled explicitly: the content-fetch collaborator is
a parameter `fetchContent : List Char → Except (List Char) (List Char)`
(error value = the thrown error's message), `new Date().toISOString()` is the
parameter `now`, and the externally observable effects are recorded as an
event trace: `setProgress` updates with their exact rational value,
`fetchFileContent` invocations, and the 100 ms rate-limit delay awaited after
a *successful* fetch (the `catch` branch has no delay). -/

/-- The static extension→language-tag map `extMap` (lines 314–341). -/
def extMap : List (List Char × List Char) :=
  [("js".data, "javascript".data), ("jsx".data, "jsx".data),
   ("ts".data, "typescript".data), ("tsx".data, "tsx".data),
   ("py".data, "python".data), ("java".data, "java".data),
   ("cpp".data, "cpp".data), ("c".data, "c".data),
   ("cs".data, "csharp".data), ("php".data, "php".data),
   ("rb".data, "ruby".data), ("go".data, "go".data),
   ("rs".data, "rust".data), ("swift".data, "swift".data),
   ("kt".data, "kotlin".data), ("scala".data, "scala".data),
   ("sh".data, "bash".data), ("yml".data, "yaml".data),
   ("yaml".data, "yaml".data), ("json".data, "json".data),
   ("xml".data, "xml".data), ("html".data, "html".data),
   ("css".data, "css".data), ("scss".data, "scss".data),
   ("sass".data, "sass".data), ("md".data, "markdown".data)]

/-- First-match lookup in `extMap` (JS object indexing; keys are unique). -/
def extLookup (m : List (List Char × List Char)) (k : List Char) : Option (List Char) :=
  match m with
  | [] => none
  | (q, v) :: rest => if q = k then some v else extLookup rest k

/-- `getFileExtension` (lines 312–343):
`const ext = filename.split('.').pop()?.toLowerCase()` —
`pop` of the nonempty split result is its last element — then
`return ext ? extMap[ext] || ext : ''` (the empty string is falsy). -/
def getFileExtension (filename : List Char) : List Char :=
  let ext := lowerStr ((splitOnChar '.' filename).getLastD [])
  if ext = [] then [] else (extLookup extMap ext).getD ext

/-- One externally observable effect of `generateOutput`. -/
inductive GenEvent where
  /-- `setProgress(v)` with the exact rational value of
  `(processedFiles / totalFiles) * 100` (or the literal 0). -/
  | setProgress (value : ℚ)
  /-- An invocation of `GitHubService.fetchFileContent` for `path`. -/
  | fetchFile (path : List Char)
  /-- `await new Promise(resolve => setTimeout(resolve, 100))`. -/
  | delay
deriving DecidableEq

/-- The body of `for (const file of selectedFilesList)` (lines 272–293),
threading `(output, processedFiles, events)`: the fetch is attempted; on
success the fenced section is appended, progress is advanced, and the
rate-limit delay is awaited; on failure (`catch`) the error section is
appended and progress is advanced, with no delay. -/
def processOne (fetchContent : List Char → Except (List Char) (List Char))
    (totalFiles : Nat) (acc : List Char × Nat × List GenEvent) (file : GitHubFile) :
    List Char × Nat × List GenEvent :=
  let (output, processedFiles, events) := acc
  match fetchContent file.path with
  | Except.ok content =>
    let output := output ++ "## File: ".data ++ file.path ++ "\n\n".data ++
      "```".data ++ getFileExtension file.name ++ "\n".data ++
      content ++ "\n```\n\n".data
    let processedFiles := processedFiles + 1
    (output, processedFiles,
      events ++ [GenEvent.fetchFile file.path,
        GenEvent.setProgress ((processedFiles : ℚ) / (totalFiles : ℚ) * 100),
        GenEvent.delay])
  | Except.error e =>
    let output := output ++ "## File: ".data ++ file.path ++ "\n\n".data ++
      "Error fetching file content: ".data ++ e ++ "\n\n".data
    let processedFiles := processedFiles + 1
    (output, processedFiles,
      events ++ [GenEvent.fetchFile file.path,
        GenEvent.setProgress ((processedFiles : ℚ) / (totalFiles : ℚ) * 100)])

/-- The result of one `generateOutput` run. -/
structure GenOutcome where
  /-- The `result` state after the run: `setResult(output)` on completion,
  unchanged on the empty-selection early return. -/
  result : List Char
  /-- `some processedFiles` (the count reported by the success toast
  `Generated text from N files`), or `none` on the empty-selection early
  return (the `EmptySelection` error toast). -/
  processed : Option Nat
  /-- The event trace, in program order. -/
  events : List GenEvent
deriving DecidableEq

/-- The header block of the bundle (lines 265–270). -/
def genHeader (repoInfo : RepoInfo) (totalFiles : Nat) (now : List Char) : List Char :=
  "# ".data ++ repoInfo.owner ++ "/".data ++ repoInfo.repo ++ "\n\n".data ++
  "Repository: https://github.com/".data ++ repoInfo.owner ++ "/".data ++
  repoInfo.repo ++ "\n".data ++
  "Branch: ".data ++ repoInfo.branch ++ "\n".data ++
  "Generated: ".data ++ now ++ "\n".data ++
  "Files included: ".data ++ (toString totalFiles).data ++ "\n\n".data ++
  "---\n\n".data

/-- `generateOutput` (lines 247–310).  Guard: `if (selectedFiles.size === 0)`
show the error toast and return (no state change, no events).  Otherwise
`setProgress(0)`, filter `files` down to the selected ones (entry order),
emit the header, run the per-file loop, `setResult(output)`, and
`setProgress(0)` again in `finally`. -/
def generateOutput (repoInfo : RepoInfo) (files : List GitHubFile)
    (selectedFiles : List (List Char))
    (fetchContent : List Char → Except (List Char) (List Char))
    (now : List Char) (prevResult : List Char) : GenOutcome :=
  if selectedFiles.isEmpty then
    { result := prevResult, processed := none, events := [] }
  else
    let selectedFilesList := files.filter fun f => selectedFiles.contains f.path
    let totalFiles := selectedFilesList.length
    let res := selectedFilesList.foldl (processOne fetchContent totalFiles)
      (genHeader repoInfo totalFiles now, 0, [GenEvent.setProgress 0])
    { result := res.1, processed := some res.2.1,
      events := res.2.2 ++ [GenEvent.setProgress 0] }

/-! ## Characterization of the generation loop

The following definitions restate, file by file, what the spec (§4.2) says
one loop iteration appends and emits; the lemma `foldl_processOne` proves the
loop implementation equal to them. -/

/-- The section the spec predicts for `file`: path heading plus fenced
content on success, path heading plus error message on failure. -/
def sectionFor (fetchContent : List Char → Except (List Char) (List Char))
    (file : GitHubFile) : List Char :=
  match fetchContent file.path with
  | Except.ok content =>
    "## File: ".data ++ file.path ++ "\n\n".data ++
      "```".data ++ getFileExtension file.name ++ "\n".data ++
      content ++ "\n```\n\n".data
  | Except.error e =>
    "## File: ".data ++ file.path ++ "\n\n".data ++
      "Error fetching file content: ".data ++ e ++ "\n\n".data

/-- Concatenation of the predicted per-file sections in list order. -/
def sectionsConcat (fetchContent : List Char → Except (List Char) (List Char)) :
    List GitHubFile → List Char
  | [] => []
  | f :: fs => sectionFor fetchContent f ++ sectionsConcat fetchContent fs

/-- The events the spec predicts for the `k`-th processed file (1-based `k`):
the fetch, then a progress update to `k / totalFiles * 100`, then — after a
successful fetch only — the rate-limit delay. -/
def eventsFor (fetchContent : List Char → Except (List Char) (List Char))
    (totalFiles : Nat) (k : Nat) (file : GitHubFile) : List GenEvent :=
  match fetchContent file.path with
  | Except.ok _ =>
    [GenEvent.fetchFile file.path,
     GenEvent.setProgress ((k : ℚ) / (totalFiles : ℚ) * 100), GenEvent.delay]
  | Except.error _ =>
    [GenEvent.fetchFile file.path,
     GenEvent.setProgress ((k : ℚ) / (totalFiles : ℚ) * 100)]

/-- The predicted event trace of the loop over the remaining files, with `k`
files already processed. -/
def loopEvents (fetchContent : List Char → Except (List Char) (List Char))
    (totalFiles : Nat) : Nat → List GitHubFile → List GenEvent
  | _, [] => []
  | k, f :: fs =>
    eventsFor fetchContent totalFiles (k + 1) f ++
      loopEvents fetchContent totalFiles (k + 1) fs

/-- The values passed to `setProgress`, in order. -/
def progressValues (events : List GenEvent) : List ℚ :=
  events.filterMap fun e =>
    match e with
    | GenEvent.setProgress q => some q
    | _ => none

theorem foldl_processOne (fetchContent : List Char → Except (List Char) (List Char))
    (n : Nat) :
    ∀ (L : List GitHubFile) (out0 : List Char) (k0 : Nat) (ev0 : List GenEvent),
      L.foldl (processOne fetchContent n) (out0, k0, ev0) =
        (out0 ++ sectionsConcat fetchContent L, k0 + L.length,
          ev0 ++ loopEvents fetchContent n k0 L)
  | [], out0, k0, ev0 => by simp [sectionsConcat, loopEvents]
  | f :: fs, out0, k0, ev0 => by
    rw [List.foldl_cons]
    cases hf : fetchContent f.path with
    | ok c =>
      rw [show processOne fetchContent n (out0, k0, ev0) f =
            (out0 ++ sectionFor fetchContent f, k0 + 1,
              ev0 ++ eventsFor fetchContent n (k0 + 1) f) by
          simp [processOne, hf, sectionFor, eventsFor]]
      rw [foldl_processOne fetchContent n fs]
      simp [sectionsConcat, loopEvents, List.append_assoc]
      omega
    | error e =>
      rw [show processOne fetchContent n (out0, k0, ev0) f =
            (out0 ++ sectionFor fetchContent f, k0 + 1,
              ev0 ++ eventsFor fetchContent n (k0 + 1) f) by
          simp [processOne, hf, sectionFor, eventsFor]]
      rw [foldl_processOne fetchContent n fs]
      simp [sectionsConcat, loopEvents, List.append_assoc]
      omega

/-- `generateOutput` on a nonempty selection, in closed form. -/
theorem generateOutput_eq (repoInfo : RepoInfo) (files : List GitHubFile)
    (selectedFiles : List (List Char))
    (fetchContent : List Char → Except (List Char) (List Char))
    (now prevResult : List Char) (h : selectedFiles ≠ []) :
    generateOutput repoInfo files selectedFiles fetchContent now prevResult =
      { result := genHeader repoInfo
            (files.filter fun f => selectedFiles.contains f.path).length now ++
          sectionsConcat fetchContent (files.filter fun f => selectedFiles.contains f.path),
        processed := some (files.filter fun f => selectedFiles.contains f.path).length,
        events := GenEvent.setProgress 0 ::
          (loopEvents fetchContent
            (files.filter fun f => selectedFiles.contains f.path).length 0
            (files.filter fun f => selectedFiles.contains f.path) ++
           [GenEvent.setProgress 0]) } := by
  rw [generateOutput]
  rw [if_neg (by simpa [List.isEmpty_iff] using h)]
  simp only [foldl_processOne]
  simp

/-- The section predicted for a member of the processed list is a contiguous
piece of the concatenated sections. -/
theorem sectionFor_infix_sectionsConcat
    (fetchContent : List Char → Except (List Char) (List Char))
    {f : GitHubFile} : ∀ {L : List GitHubFile}, f ∈ L →
    sectionFor fetchContent f <:+: sectionsConcat fetchContent L := by
  intro L hf
  induction L with
  | nil => cases hf
  | cons g gs ih =>
    rcases List.mem_cons.mp hf with h | h
    · subst h
      exact (List.prefix_append _ _).isInfix
    · exact (ih h).trans (List.suffix_append _ _).isInfix

/-- Both branches of a section start with the path heading. -/
theorem heading_isPre_sectionFor
    (fetchContent : List Char → Except (List Char) (List Char)) (f : GitHubFile) :
    ("## File: ".data ++ f.path ++ "\n\n".data) <+: sectionFor fetchContent f := by
  unfold sectionFor
  cases fetchContent f.path with
  | ok c =>
    exact ⟨"```".data ++ getFileExtension f.name ++ "\n".data ++ c ++ "\n```\n\n".data,
      by simp [List.append_assoc]⟩
  | error e =>
    exact ⟨"Error fetching file content: ".data ++ e ++ "\n\n".data,
      by simp [List.append_assoc]⟩

/-- Monotonicity of the progress formula `(k / n) * 100` in `k` (for `n = 0`
both sides are `0`). -/
theorem progressFormula_mono (n : Nat) {a b : Nat} (hab : a ≤ b) :
    (a : ℚ) / (n : ℚ) * 100 ≤ (b : ℚ) / (n : ℚ) * 100 := by
  rcases Nat.eq_zero_or_pos n with h | h
  · subst h; simp
  · have hn : (0 : ℚ) < (n : ℚ) := by exact_mod_cast h
    have : (a : ℚ) / (n : ℚ) ≤ (b : ℚ) / (n : ℚ) :=
      (div_le_div_iff_of_pos_right hn).mpr (by exact_mod_cast hab)
    nlinarith

/-- Each iteration emits exactly one progress value, `(k+1)/n*100`. -/
theorem progressValues_loopEvents_cons
    (fetchContent : List Char → Except (List Char) (List Char))
    (n k : Nat) (f : GitHubFile) (fs : List GitHubFile) :
    progressValues (loopEvents fetchContent n k (f :: fs)) =
      ((k + 1 : Nat) : ℚ) / (n : ℚ) * 100 ::
        progressValues (loopEvents fetchContent n (k + 1) fs) := by
  rw [loopEvents]
  unfold eventsFor progressValues
  cases fetchContent f.path <;> simp

/-- The progress values of the loop, seeded with the value for `k` processed
files, form a `≤`-chain. -/
theorem progress_chain (fetchContent : List Char → Except (List Char) (List Char))
    (n : Nat) : ∀ (L : List GitHubFile) (k : Nat),
    List.Chain' (· ≤ ·)
      ((k : ℚ) / (n : ℚ) * 100 :: progressValues (loopEvents fetchContent n k L))
  | [], k => by simp [loopEvents, progressValues]
  | f :: fs, k => by
    rw [progressValues_loopEvents_cons]
    rw [List.chain'_cons]
    exact ⟨progressFormula_mono n (Nat.le_succ k),
      by simpa using progress_chain fetchContent n fs (k + 1)⟩

/-! ## Test fixtures (shared by concrete witnesses and counterexamples) -/

/-- Fixture: a top-level text file `a.txt`. -/
def fileA : GitHubFile := ⟨"a.txt".data, "a.txt".data, EType.file⟩

/-- Fixture: a top-level text file `b.txt`. -/
def fileB : GitHubFile := ⟨"b.txt".data, "b.txt".data, EType.file⟩

/-- Fixture: a fetch collaborator whose fetch of `a.txt` throws `boom` and
which returns `ok` for every other path. -/
def fetchFailA : List Char → Except (List Char) (List Char) :=
  fun p => if p = "a.txt".data then Except.error "boom".data else Except.ok "ok".data

/-- Fixture: a two-file generation run in which the first file's fetch
fails. -/
def twoFileRun : GenOutcome :=
  generateOutput ⟨"o".data, "r".data, "main".data⟩ [fileA, fileB]
    ["a.txt".data, "b.txt".data] fetchFailA "T".data []

/-! ## Claim theorems for the bundle generator -/

/-- **C2** (confirmed).  For every non-empty selection, each selected file —
whether its fetch succeeds or fails — contributes a section to the output
containing its path heading; on failure that section carries the
human-readable error message; generation covers all selected files, and the
reported attempted count (the success toast's `processedFiles`) equals the
number of selected files.  No single fetch failure aborts the bundle. -/
theorem generateOutput_failure_isolation (repoInfo : RepoInfo)
    (files : List GitHubFile) (selectedFiles : List (List Char))
    (fetchContent : List Char → Except (List Char) (List Char))
    (now prevResult : List Char) (hne : selectedFiles ≠ []) :
    (generateOutput repoInfo files selectedFiles fetchContent now prevResult).processed =
      some (files.filter fun f => selectedFiles.contains f.path).length ∧
    (∀ f ∈ files, selectedFiles.contains f.path = true →
      ("## File: ".data ++ f.path ++ "\n\n".data) <:+:
        (generateOutput repoInfo files selectedFiles fetchContent now prevResult).result) ∧
    (∀ f ∈ files, selectedFiles.contains f.path = true →
      ∀ e, fetchContent f.path = Except.error e →
      ("## File: ".data ++ f.path ++ "\n\n".data ++
        "Error fetching file content: ".data ++ e ++ "\n\n".data) <:+:
        (generateOutput repoInfo files selectedFiles fetchContent now prevResult).result) := by
  rw [generateOutput_eq repoInfo files selectedFiles fetchContent now prevResult hne]
  refine ⟨rfl, ?_, ?_⟩
  · intro f hf hsel
    have hmem : f ∈ files.filter fun f => selectedFiles.contains f.path :=
      List.mem_filter.mpr ⟨hf, hsel⟩
    have h1 := sectionFor_infix_sectionsConcat fetchContent hmem
    have h2 := (heading_isPre_sectionFor fetchContent f).isInfix
    exact (h2.trans h1).trans (List.suffix_append _ _).isInfix
  · intro f hf hsel e he
    have hmem : f ∈ files.filter fun f => selectedFiles.contains f.path :=
      List.mem_filter.mpr ⟨hf, hsel⟩
    have h1 := sectionFor_infix_sectionsConcat fetchContent hmem
    have h2 : sectionFor fetchContent f =
        "## File: ".data ++ f.path ++ "\n\n".data ++
          "Error fetching file content: ".data ++ e ++ "\n\n".data := by
      unfold sectionFor
      rw [he]
    rw [h2] at h1
    exact h1.trans (List.suffix_append _ _).isInfix

/-- Witness for **C2**: the two-file run with a failing first fetch contains
the error section for `a.txt`, the heading for `b.txt`, and reports 2 files
attempted. -/
theorem generateOutput_failure_isolation_witness :
    twoFileRun.processed = some 2 ∧
    (("## File: ".data ++ fileA.path ++ "\n\n".data ++
      "Error fetching file content: ".data ++ "boom".data ++ "\n\n".data) <:+:
      twoFileRun.result) ∧
    (("## File: ".data ++ fileB.path ++ "\n\n".data) <:+: twoFileRun.result) := by
  have h := generateOutput_failure_isolation ⟨"o".data, "r".data, "main".data⟩
    [fileA, fileB] ["a.txt".data, "b.txt".data] fetchFailA "T".data []
    (by decide)
  exact ⟨h.1.trans (by decide),
    h.2.2 fileA (by decide) (by decide) "boom".data rfl,
    h.2.1 fileB (by decide) (by decide)⟩

/-- **C4** (confirmed).  With an empty selection, `generateOutput` takes the
`EmptySelection` early return (`processed = none`, the error toast path): the
previous `result` state is returned unchanged and the event trace is empty —
in particular no `fetchFile` event, so no per-file fetch is invoked. -/
theorem generateOutput_empty_selection (repoInfo : RepoInfo)
    (files : List GitHubFile)
    (fetchContent : List Char → Except (List Char) (List Char))
    (now prevResult : List Char) :
    generateOutput repoInfo files [] fetchContent now prevResult =
      { result := prevResult, processed := none, events := [] } := rfl

/-- **C7 amended** (corrected).  On a nonempty selection the event trace is
exactly: `setProgress 0`, then for the `k`-th selected file (in entry order)
a fetch followed by a progress update to exactly `k / totalSelected * 100` —
i.e. an advance of `1/totalSelected` of the total per file, success or
failure — with the fixed rate-limit delay awaited *only after a successful
fetch* (the `catch` branch proceeds to the next fetch without a delay),
followed by the `finally` reset `setProgress 0`; and the progress values up
to the end of the loop are monotonically non-decreasing. -/
theorem generateOutput_progress_events (repoInfo : RepoInfo)
    (files : List GitHubFile) (selectedFiles : List (List Char))
    (fetchContent : List Char → Except (List Char) (List Char))
    (now prevResult : List Char) (hne : selectedFiles ≠ []) :
    (generateOutput repoInfo files selectedFiles fetchContent now prevResult).events =
      GenEvent.setProgress 0 ::
        (loopEvents fetchContent
            (files.filter fun f => selectedFiles.contains f.path).length 0
            (files.filter fun f => selectedFiles.contains f.path) ++
          [GenEvent.setProgress 0]) ∧
    List.Chain' (· ≤ ·)
      (progressValues (GenEvent.setProgress 0 ::
        loopEvents fetchContent
          (files.filter fun f => selectedFiles.contains f.path).length 0
          (files.filter fun f => selectedFiles.contains f.path))) := by
  constructor
  · rw [generateOutput_eq repoInfo files selectedFiles fetchContent now prevResult hne]
  · have h := progress_chain fetchContent
      (files.filter fun f => selectedFiles.contains f.path).length
      (files.filter fun f => selectedFiles.contains f.path) 0
    simpa [progressValues] using h

/-- Witness for **C7 amended**: the two-file run's trace is the predicted
one, and its loop progress values (`0, 50, 100`) form a `≤`-chain. -/
theorem generateOutput_progress_events_witness :
    twoFileRun.events =
      GenEvent.setProgress 0 ::
        (loopEvents fetchFailA 2 0 [fileA, fileB] ++ [GenEvent.setProgress 0]) ∧
    List.Chain' (· ≤ ·)
      (progressValues (GenEvent.setProgress 0 :: loopEvents fetchFailA 2 0 [fileA, fileB])) := by
  have h := generateOutput_progress_events ⟨"o".data, "r".data, "main".data⟩
    [fileA, fileB] ["a.txt".data, "b.txt".data] fetchFailA "T".data []
    (by decide)
  refine ⟨h.1.trans (by rfl), ?_⟩
  have h2 := h.2
  exact h2

/-- Counterexample for **C7** as stated: in the two-file run the first file's
fetch fails, and the trace between the two fetch events (indices 1 and 3)
contains a progress update but *no* delay event — so no fixed delay is
awaited after a failed file before the next file's fetch begins. -/
theorem generateOutput_no_delay_on_failure_cex :
    twoFileRun.events =
      [GenEvent.setProgress 0, GenEvent.fetchFile "a.txt".data,
       GenEvent.setProgress 50, GenEvent.fetchFile "b.txt".data,
       GenEvent.setProgress 100, GenEvent.delay, GenEvent.setProgress 0] ∧
    GenEvent.delay ∉ twoFileRun.events.take 4 := by
  have hev : twoFileRun.events =
      [GenEvent.setProgress 0, GenEvent.fetchFile "a.txt".data,
       GenEvent.setProgress 50, GenEvent.fetchFile "b.txt".data,
       GenEvent.setProgress 100, GenEvent.delay, GenEvent.setProgress 0] := by
    rw [twoFileRun, generateOutput_eq _ _ _ _ _ _ (by decide)]
    have hf : List.filter (fun f => ["a.txt".data, "b.txt".data].contains f.path)
        [fileA, fileB] = [fileA, fileB] := by decide
    simp only [hf]
    simp only [loopEvents, eventsFor, fetchFailA, fileA, fileB]
    norm_num
    decide
  refine ⟨hev, ?_⟩
  rw [hev]
  decide

/-! ## Lemmas about `splitOnChar` and `getFileExtension` (for C3) -/

theorem splitOnChar_ne_nil (sep : Char) : ∀ (s : List Char), splitOnChar sep s ≠ []
  | [] => by simp [splitOnChar]
  | c :: rest => by
    by_cases hc : c = sep
    · simp [splitOnChar, hc]
    · cases hsp : splitOnChar sep rest with
      | nil => exact absurd hsp (splitOnChar_ne_nil sep rest)
      | cons g gs => simp [splitOnChar, hc, hsp]

theorem splitOnChar_no_sep {sep : Char} : ∀ {s : List Char}, sep ∉ s → splitOnChar sep s = [s]
  | [], _ => rfl
  | c :: rest, h => by
    have hc : ¬ c = sep := fun hc => h (hc ▸ List.mem_cons_self c rest)
    have ih := splitOnChar_no_sep (s := rest) (fun hm => h (List.mem_cons_of_mem c hm))
    simp [splitOnChar, hc, ih]

theorem getLastD_of_ne_nil {α : Type} : ∀ {l : List α}, l ≠ [] → ∀ (d e : α), l.getLastD d = l.getLastD e
  | [], h, _, _ => absurd rfl h
  | [_], _, _, _ => rfl
  | _ :: b :: t, _, d, e => by
    simp only [List.getLastD_cons]

theorem splitOnChar_append_two (sep : Char) : ∀ (xs ys : List Char),
    2 ≤ (splitOnChar sep (xs ++ sep :: ys)).length
  | [], ys => by
    have h := List.length_pos.mpr (splitOnChar_ne_nil sep ys)
    simp [splitOnChar]
    omega
  | x :: xs, ys => by
    by_cases hx : x = sep
    · have h := List.length_pos.mpr (splitOnChar_ne_nil sep (xs ++ sep :: ys))
      simp [splitOnChar, hx]
      omega
    · cases hsp : splitOnChar sep (xs ++ sep :: ys) with
      | nil => exact absurd hsp (splitOnChar_ne_nil sep (xs ++ sep :: ys))
      | cons g gs =>
        have ih := splitOnChar_append_two sep xs ys
        rw [hsp] at ih
        simp only [List.cons_append, splitOnChar, if_neg hx, List.append_eq, hsp]
        simpa using ih

/-- The last piece of a split at a separator occurrence with a separator-free
tail is that tail. -/
theorem getLastD_splitOnChar_append (sep : Char) : ∀ (xs ys : List Char), sep ∉ ys →
    (splitOnChar sep (xs ++ sep :: ys)).getLastD [] = ys
  | [], ys, hy => by
    simp [splitOnChar, splitOnChar_no_sep hy, List.getLastD_cons]
  | x :: xs, ys, hy => by
    by_cases hx : x = sep
    · have ih := getLastD_splitOnChar_append sep xs ys hy
      simp only [List.cons_append, splitOnChar, if_pos hx, List.getLastD_cons]
      exact getLastD_of_ne_nil (splitOnChar_ne_nil sep (xs ++ sep :: ys)) [] [] ▸ ih
    · cases hsp : splitOnChar sep (xs ++ sep :: ys) with
      | nil => exact absurd hsp (splitOnChar_ne_nil sep (xs ++ sep :: ys))
      | cons g gs =>
        have ih := getLastD_splitOnChar_append sep xs ys hy
        have h2 := splitOnChar_append_two sep xs ys
        rw [hsp] at ih h2
        cases gs with
        | nil => simp at h2
        | cons g2 gs2 =>
          simp only [List.cons_append, splitOnChar, if_neg hx, List.append_eq, hsp]
          rw [List.getLastD_cons] at ih ⊢
          rw [getLastD_of_ne_nil (l := g2 :: gs2) (by simp) (x :: g) g]
          exact ih

theorem lowerStr_ne_nil {s : List Char} (h : s ≠ []) : lowerStr s ≠ [] := by
  cases s with
  | nil => exact absurd rfl h
  | cons c t => simp [lowerStr]

/-! ## Fixtures for C3 -/

/-- Fixture: a file `x.py`. -/
def filePy : GitHubFile := ⟨"x.py".data, "x.py".data, EType.file⟩

/-- Fixture: a fetch collaborator always returning `print(1)`. -/
def fetchPy : List Char → Except (List Char) (List Char) :=
  fun _ => Except.ok "print(1)".data

/-- Fixture: the spec's example run with selection `{"x.py"}`. -/
def pyRun : GenOutcome :=
  generateOutput ⟨"o".data, "r".data, "main".data⟩ [filePy]
    ["x.py".data] fetchPy "T".data []

/-- Fixture: an extensionless file `README`. -/
def readmeFile : GitHubFile := ⟨"README".data, "README".data, EType.file⟩

/-- Fixture: a fetch collaborator always returning `Hello`. -/
def fetchHello : List Char → Except (List Char) (List Char) :=
  fun _ => Except.ok "Hello".data

/-- Fixture: a run over the single extensionless file `README`. -/
def readmeRun : GenOutcome :=
  generateOutput ⟨"o".data, "r".data, "main".data⟩ [readmeFile]
    ["README".data] fetchHello "T".data []

/-- **C3 amended** (corrected).  Every successfully fetched selected file
contributes a section with its path heading and its raw content in a fence
tagged `getFileExtension(name)`; and the tag is: the mapped language
identifier when the lowercased *last dot-segment* of the name is in the
static map, that raw lowercased segment when it is not, and — since
`split('.').pop()` of a dotless name is the whole name — the lowercased whole
name (mapped through the same table) when the name has no dot; the fence is
untagged only when the computed segment is empty (empty name, or a name
ending in `.`). -/
theorem generateOutput_fence_tags (repoInfo : RepoInfo)
    (files : List GitHubFile) (selectedFiles : List (List Char))
    (fetchContent : List Char → Except (List Char) (List Char))
    (now prevResult : List Char) (hne : selectedFiles ≠ []) :
    (∀ f ∈ files, selectedFiles.contains f.path = true →
      ∀ c, fetchContent f.path = Except.ok c →
      ("## File: ".data ++ f.path ++ "\n\n".data ++ "```".data ++
        getFileExtension f.name ++ "\n".data ++ c ++ "\n```\n\n".data) <:+:
        (generateOutput repoInfo files selectedFiles fetchContent now prevResult).result) ∧
    (∀ stem extn : List Char, '.' ∉ extn → extn ≠ [] →
      getFileExtension (stem ++ '.' :: extn) =
        (extLookup extMap (lowerStr extn)).getD (lowerStr extn)) ∧
    (∀ nm : List Char, '.' ∉ nm → nm ≠ [] →
      getFileExtension nm = (extLookup extMap (lowerStr nm)).getD (lowerStr nm)) ∧
    (∀ stem : List Char, getFileExtension (stem ++ ['.']) = []) ∧
    getFileExtension [] = [] := by
  refine ⟨?_, ?_, ?_, ?_, rfl⟩
  · intro f hf hsel c hc
    rw [generateOutput_eq repoInfo files selectedFiles fetchContent now prevResult hne]
    have hmem : f ∈ files.filter fun f => selectedFiles.contains f.path :=
      List.mem_filter.mpr ⟨hf, hsel⟩
    have h1 := sectionFor_infix_sectionsConcat fetchContent hmem
    have h2 : sectionFor fetchContent f =
        "## File: ".data ++ f.path ++ "\n\n".data ++ "```".data ++
          getFileExtension f.name ++ "\n".data ++ c ++ "\n```\n\n".data := by
      unfold sectionFor
      rw [hc]
    rw [h2] at h1
    exact h1.trans (List.suffix_append _ _).isInfix
  · intro stem extn hdot hne'
    have hlast := getLastD_splitOnChar_append '.' stem extn hdot
    rw [getFileExtension, hlast]
    rw [if_neg (lowerStr_ne_nil hne')]
  · intro nm hdot hne'
    rw [getFileExtension, splitOnChar_no_sep hdot]
    simp only [List.getLastD_cons, List.getLastD_nil]
    rw [if_neg (lowerStr_ne_nil hne')]
  · intro stem
    have hlast := getLastD_splitOnChar_append '.' stem [] (by simp)
    rw [show stem ++ ['.'] = stem ++ '.' :: [] from rfl, getFileExtension, hlast]
    simp [lowerStr]

/-- Witness for **C3 amended**: the `x.py` run contains the heading `x.py`
and a `python`-tagged fence wrapping `print(1)`; `py` maps to `python`,
unmapped `xyz` falls through, and the dotless `README` is tagged with its
lowercased self. -/
theorem generateOutput_fence_tags_witness :
    (("## File: ".data ++ filePy.path ++ "\n\n".data ++ "```".data ++
      getFileExtension filePy.name ++ "\n".data ++ "print(1)".data ++ "\n```\n\n".data) <:+:
      pyRun.result) ∧
    getFileExtension ("x".data ++ '.' :: "py".data) =
      (extLookup extMap (lowerStr "py".data)).getD (lowerStr "py".data) ∧
    getFileExtension "README".data =
      (extLookup extMap (lowerStr "README".data)).getD (lowerStr "README".data) ∧
    getFileExtension ("data".data ++ '.' :: "xyz".data) =
      (extLookup extMap (lowerStr "xyz".data)).getD (lowerStr "xyz".data) ∧
    getFileExtension "x.py".data = "python".data := by
  have h := generateOutput_fence_tags ⟨"o".data, "r".data, "main".data⟩ [filePy]
    ["x.py".data] fetchPy "T".data [] (by decide)
  exact ⟨h.1 filePy (by decide) (by decide) "print(1)".data rfl,
    h.2.1 "x".data "py".data (by decide) (by decide),
    h.2.2.1 "README".data (by decide) (by decide),
    h.2.1 "data".data "xyz".data (by decide) (by decide),
    by decide⟩

set_option maxRecDepth 100000 in
/-- Counterexample for **C3** as stated: `README` has no extension, yet its
fence is tagged `readme` (the whole lowercased name), not untagged — the
claim's "no tag at all when the filename has no extension" fails. -/
theorem getFileExtension_no_dot_cex :
    getFileExtension "README".data = "readme".data ∧
    ("```readme\nHello\n```\n\n".data <:+: readmeRun.result) ∧
    ¬ ("```\nHello".data <:+: readmeRun.result) := by
  refine ⟨by decide, by decide, by decide⟩

/-- **C9** (confirmed).  A tree entry is kept by `fetchRepository`'s filter
exactly when it is a file whose name matches the static allow-list
(`isTextFile`) and whose path matches none of the static deny-list patterns
(`excludeMatches … = false`, i.e. `shouldIncludeFile`); an entry failing
either test is excluded. -/
theorem filterTextFiles_mem (tree : List GitHubFile) (f : GitHubFile) :
    f ∈ filterTextFiles tree ↔
      f ∈ tree ∧ f.type = EType.file ∧ isTextFile f.name = true ∧
        excludeMatches f.path = false := by
  simp only [filterTextFiles, List.mem_filter, Bool.and_eq_true, decide_eq_true_eq,
    shouldIncludeFile, Bool.not_eq_true', and_assoc]

/-! ## Lemmas about the `parseRepoUrl` matchers (C5, C6, C10) -/

theorem takeWhile_of_all {l : List Char} (h : ∀ c ∈ l, c ≠ '/') :
    l.takeWhile (fun c => c != '/') = l := by
  induction l with
  | nil => rfl
  | cons c t ih =>
    have hc : (c != '/') = true := by
      simpa using h c (List.mem_cons_self c t)
    simp only [List.takeWhile_cons, hc, if_true]
    rw [ih fun x hx => h x (List.mem_cons_of_mem c hx)]

theorem takeWhile_append_slash {xs : List Char} (ys : List Char)
    (hx : ∀ c ∈ xs, c ≠ '/') :
    (xs ++ '/' :: ys).takeWhile (fun c => c != '/') = xs := by
  induction xs with
  | nil => simp [List.takeWhile_cons]
  | cons c t ih =>
    have hc : (c != '/') = true := by
      simpa using hx c (List.mem_cons_self c t)
    simp only [List.cons_append, List.takeWhile_cons, hc, if_true]
    rw [ih fun x hxm => hx x (List.mem_cons_of_mem c hxm)]

/-- `ghLit.isPrefixOf (ghLit ++ w)` holds. -/
theorem ghLit_isPre_append (w : List Char) : ghLit.isPrefixOf (ghLit ++ w) = true :=
  List.isPrefixOf_iff_prefix.mpr (List.prefix_append _ _)

/-- Computation of `matchGithubAt` at an occurrence with no `/tree/` tail:
the two greedy groups are the two slash-free segments, group 3 is absent. -/
theorem matchGithubAt_noTree (o r : List Char)
    (ho : o ≠ []) (ho' : ∀ c ∈ o, c ≠ '/')
    (hr : r ≠ []) (hr' : ∀ c ∈ r, c ≠ '/') :
    matchGithubAt (ghLit ++ (o ++ '/' :: r)) = some (o, r, none) := by
  rw [matchGithubAt, if_pos (ghLit_isPre_append _)]
  simp only [List.drop_left, takeWhile_append_slash r ho']
  rw [if_neg (by simpa [List.isEmpty_iff] using ho)]
  simp only [if_true]
  rw [takeWhile_of_all hr']
  rw [if_neg (by simpa [List.isEmpty_iff] using hr)]
  rw [List.drop_length]
  rw [if_neg (by decide : ¬ treeLit.isPrefixOf ([] : List Char) = true)]

/-- Computation of `matchGithubAt` at an occurrence with a `/tree/branch`
tail: group 3 captures the branch. -/
theorem matchGithubAt_tree (o r b : List Char)
    (ho : o ≠ []) (ho' : ∀ c ∈ o, c ≠ '/')
    (hr : r ≠ []) (hr' : ∀ c ∈ r, c ≠ '/')
    (hb : b ≠ []) (hb' : ∀ c ∈ b, c ≠ '/') :
    matchGithubAt (ghLit ++ (o ++ '/' :: (r ++ treeLit ++ b))) = some (o, r, some b) := by
  have hw : r ++ treeLit ++ b = r ++ '/' :: ("tree/".data ++ b) := by
    simp [treeLit, List.append_assoc]
  rw [hw]
  rw [matchGithubAt, if_pos (ghLit_isPre_append _)]
  simp only [List.drop_left, takeWhile_append_slash _ ho']
  rw [if_neg (by simpa [List.isEmpty_iff] using ho)]
  simp only [if_true]
  rw [takeWhile_append_slash _ hr']
  rw [if_neg (by simpa [List.isEmpty_iff] using hr)]
  rw [show (r ++ '/' :: ("tree/".data ++ b)).drop r.length = '/' :: ("tree/".data ++ b) from
    List.drop_left r _]
  rw [show ('/' :: ("tree/".data ++ b) : List Char) = treeLit ++ b from rfl]
  rw [if_pos (List.isPrefixOf_iff_prefix.mpr (List.prefix_append treeLit b))]
  rw [List.drop_left, takeWhile_of_all hb']
  rw [if_neg (by simpa [List.isEmpty_iff] using hb)]

/-- A start position whose head is not `g` cannot match the first pattern. -/
theorem matchGithubAt_head_ne {c : Char} (t : List Char) (hc : c ≠ 'g') :
    matchGithubAt (c :: t) = none := by
  have hg : ('g' == c) = false := beq_eq_false_iff_ne.mpr (fun h => hc h.symm)
  have hpre : ghLit.isPrefixOf (c :: t) = false := by
    rw [show ghLit = 'g' :: "ithub.com/".data from rfl]
    simp [List.isPrefixOf, hg]
  rw [matchGithubAt, if_neg (by simp [hpre])]

/-- The scan skips a non-`g` head. -/
theorem matchGithub_cons_ne {c : Char} (t : List Char) (hc : c ≠ 'g') :
    matchGithub (c :: t) = matchGithub t := by
  show (matchGithubAt (c :: t)).orElse (fun _ => matchGithub t) = matchGithub t
  rw [matchGithubAt_head_ne t hc]
  rfl

/-- Scanning `https://github.com/…` finds the match at the `github.com/`
occurrence (positions inside `https://` all fail on their first
character). -/
theorem matchGithub_https {w : List Char} {x : List Char × List Char × Option (List Char)}
    (hx : matchGithubAt (ghLit ++ w) = some x) :
    matchGithub ("https://github.com/".data ++ w) = some x := by
  show matchGithub
    ('h' :: 't' :: 't' :: 'p' :: 's' :: ':' :: '/' :: '/' :: (ghLit ++ w)) = some x
  rw [matchGithub_cons_ne _ (by decide), matchGithub_cons_ne _ (by decide),
    matchGithub_cons_ne _ (by decide), matchGithub_cons_ne _ (by decide),
    matchGithub_cons_ne _ (by decide), matchGithub_cons_ne _ (by decide),
    matchGithub_cons_ne _ (by decide), matchGithub_cons_ne _ (by decide)]
  show (matchGithubAt (ghLit ++ w)).orElse
    (fun _ => matchGithub ("ithub.com/".data ++ w)) = some x
  rw [hx]
  rfl

/-- A successful match of the first pattern needs at least two slashes. -/
theorem matchGithubAt_some_count {s : List Char}
    {x : List Char × List Char × Option (List Char)}
    (h : matchGithubAt s = some x) : 2 ≤ s.count '/' := by
  rw [matchGithubAt] at h
  by_cases hp : ghLit.isPrefixOf s
  case neg => rw [if_neg hp] at h; exact absurd h (by simp)
  rw [if_pos hp] at h
  obtain ⟨tail, htail⟩ := List.isPrefixOf_iff_prefix.mp hp
  by_cases hg1 : ((s.drop ghLit.length).takeWhile (fun c => c != '/')).isEmpty
  · rw [if_pos hg1] at h; exact absurd h (by simp)
  rw [if_neg hg1] at h
  cases hdrop : (s.drop ghLit.length).drop
      ((s.drop ghLit.length).takeWhile (fun c => c != '/')).length with
  | nil => rw [hdrop] at h; exact absurd h (by simp)
  | cons c rest2 =>
    rw [hdrop] at h
    simp only [] at h
    by_cases hc : c = '/'
    case neg => rw [if_neg hc] at h; exact absurd h (by simp)
    subst hc
    have hmem : '/' ∈ s.drop ghLit.length := by
      have : '/' ∈ (s.drop ghLit.length).drop
          ((s.drop ghLit.length).takeWhile (fun c => c != '/')).length := by
        rw [hdrop]; exact List.mem_cons_self _ _
      exact List.drop_subset _ _ this
    have hrest : s.drop ghLit.length = tail := by
      rw [← htail, List.drop_left]
    rw [hrest] at hmem
    have h1 : 1 ≤ tail.count '/' := List.one_le_count_iff.mpr hmem
    have h2 : s.count '/' = ghLit.count '/' + tail.count '/' := by
      rw [← htail, List.count_append]
    have h3 : ghLit.count '/' = 1 := by decide
    omega

/-- A successful scan of the first pattern needs at least two slashes. -/
theorem matchGithub_some_count : ∀ {s : List Char}
    {x : List Char × List Char × Option (List Char)},
    matchGithub s = some x → 2 ≤ s.count '/'
  | [], x, h => by
    rw [show matchGithub [] = none from rfl] at h
    exact absurd h (by simp)
  | c :: t, x, h => by
    rw [show matchGithub (c :: t) =
      (matchGithubAt (c :: t)).orElse (fun _ => matchGithub t) from rfl] at h
    cases hat : matchGithubAt (c :: t) with
    | some y =>
      rw [hat] at h
      exact matchGithubAt_some_count hat
    | none =>
      rw [hat] at h
      simp only [Option.orElse, Option.none_orElse] at h
      have := matchGithub_some_count h
      have hcount : t.count '/' ≤ (c :: t).count '/' := by
        rw [List.count_cons]; omega
      omega

/-- An input with nonempty slash-free segments around a single slash has
slash-count one. -/
theorem count_slash_single {o r : List Char}
    (ho' : ∀ c ∈ o, c ≠ '/') (hr' : ∀ c ∈ r, c ≠ '/') :
    (o ++ '/' :: r).count '/' = 1 := by
  have h1 : o.count '/' = 0 := List.count_eq_zero.mpr fun hm => ho' '/' hm rfl
  have h2 : r.count '/' = 0 := List.count_eq_zero.mpr fun hm => hr' '/' hm rfl
  rw [List.count_append, List.count_cons, h1, h2]
  simp

/-- Computation of the anchored second pattern on `o/r` with `o`, `r`
nonempty and slash-free. -/
theorem matchBare_eq (o r : List Char)
    (ho : o ≠ []) (ho' : ∀ c ∈ o, c ≠ '/')
    (hr : r ≠ []) (hr' : ∀ c ∈ r, c ≠ '/') :
    matchBare (o ++ '/' :: r) = some (o, r) := by
  rw [matchBare]
  simp only [takeWhile_append_slash r ho', List.drop_left]
  rw [if_neg (by simpa [List.isEmpty_iff] using ho)]
  simp only [if_true]
  rw [if_neg (by simpa [List.isEmpty_iff] using hr)]
  rw [if_pos (by simpa [List.all_eq_true] using hr')]

/-- `replace(/\.git$/, '')` strips one trailing `.git`. -/
theorem stripDotGit_append_git (r : List Char) :
    stripDotGit (r ++ ".git".data) = r := by
  have hs : ".git".data.isSuffixOf (r ++ ".git".data) = true := by
    unfold List.isSuffixOf
    simp
  rw [stripDotGit, if_pos (by simp [hs])]
  have hlen : (r ++ ".git".data).length - 4 = r.length := by
    simp
  rw [hlen]
  exact List.take_left r _

/-- `replace(/\.git$/, '')` is the identity when `.git` is not a suffix. -/
theorem stripDotGit_no_suffix {r : List Char}
    (h : ".git".data.isSuffixOf r = false) : stripDotGit r = r := by
  rw [stripDotGit, if_neg (by simp [h])]

/-- **C5** (confirmed).  For every owner, repo and branch segment (nonempty,
slash-free, the repo segment not ending in `.git` — that case is C10's),
`parseRepoUrl` accepts the full host URL with and without a `/tree/branch`
suffix, and the bare `owner/repo` shorthand; the branch comes from the
`/tree/` segment when present and defaults to `main` otherwise. -/
theorem parseRepoUrl_accepts (o r b : List Char)
    (ho : o ≠ []) (ho' : ∀ c ∈ o, c ≠ '/')
    (hr : r ≠ []) (hr' : ∀ c ∈ r, c ≠ '/')
    (hb : b ≠ []) (hb' : ∀ c ∈ b, c ≠ '/')
    (hgit : ".git".data.isSuffixOf r = false) :
    parseRepoUrl ("https://github.com/".data ++ o ++ "/".data ++ r ++ "/tree/".data ++ b) =
      some ⟨o, r, b⟩ ∧
    parseRepoUrl ("https://github.com/".data ++ o ++ "/".data ++ r) =
      some ⟨o, r, "main".data⟩ ∧
    parseRepoUrl (o ++ "/".data ++ r) = some ⟨o, r, "main".data⟩ := by
  refine ⟨?_, ?_, ?_⟩
  · have harg : "https://github.com/".data ++ o ++ "/".data ++ r ++ "/tree/".data ++ b =
        "https://github.com/".data ++ (o ++ '/' :: (r ++ treeLit ++ b)) := by
      simp [treeLit, List.append_assoc]
    rw [harg, parseRepoUrl,
      matchGithub_https (matchGithubAt_tree o r b ho ho' hr hr' hb hb')]
    simp only [Option.getD_some, stripDotGit_no_suffix hgit]
  · have harg : "https://github.com/".data ++ o ++ "/".data ++ r =
        "https://github.com/".data ++ (o ++ '/' :: r) := by
      simp [List.append_assoc]
    rw [harg, parseRepoUrl,
      matchGithub_https (matchGithubAt_noTree o r ho ho' hr hr')]
    simp only [stripDotGit_no_suffix hgit, Option.getD_none]
  · have harg : o ++ "/".data ++ r = o ++ '/' :: r := by
      simp [List.append_assoc]
    rw [harg, parseRepoUrl]
    cases hm : matchGithub (o ++ '/' :: r) with
    | some y =>
      have h2 := matchGithub_some_count hm
      rw [count_slash_single ho' hr'] at h2
      omega
    | none =>
      rw [matchBare_eq o r ho ho' hr hr']
      simp only [stripDotGit_no_suffix hgit]

/-- Witness for **C5**: the spec's two parser examples. -/
theorem parseRepoUrl_accepts_witness :
    parseRepoUrl "https://github.com/acme/widgets/tree/dev".data =
      some ⟨"acme".data, "widgets".data, "dev".data⟩ ∧
    parseRepoUrl "acme/widgets".data = some ⟨"acme".data, "widgets".data, "main".data⟩ := by
  have h := parseRepoUrl_accepts "acme".data "widgets".data "dev".data
    (by decide) (by decide) (by decide) (by decide) (by decide) (by decide) (by decide)
  exact ⟨h.1, h.2.2⟩

/-- **C10** (confirmed).  For accepted inputs whose repo segment ends in
`.git`, the returned `repo` has that trailing suffix removed; the suffix is
stripped at most once (`widgets.git.git ↦ widgets.git`) and only at the end
(a repo segment without the suffix is returned verbatim). -/
theorem parseRepoUrl_strips_dot_git (o r : List Char)
    (ho : o ≠ []) (ho' : ∀ c ∈ o, c ≠ '/') (hr' : ∀ c ∈ r, c ≠ '/') :
    parseRepoUrl (o ++ "/".data ++ r ++ ".git".data) = some ⟨o, r, "main".data⟩ ∧
    parseRepoUrl (o ++ "/".data ++ r ++ ".git".data ++ ".git".data) =
      some ⟨o, r ++ ".git".data, "main".data⟩ ∧
    (".git".data.isSuffixOf r = false → r ≠ [] →
      parseRepoUrl (o ++ "/".data ++ r) = some ⟨o, r, "main".data⟩) := by
  have hgitfree : ∀ c ∈ ".git".data, c ≠ '/' := by decide
  have hrg' : ∀ c ∈ r ++ ".git".data, c ≠ '/' := by
    intro c hc
    rcases List.mem_append.mp hc with h | h
    · exact hr' c h
    · exact hgitfree c h
  have hrg : (r ++ ".git".data : List Char) ≠ [] := by simp
  have hrgg' : ∀ c ∈ r ++ ".git".data ++ ".git".data, c ≠ '/' := by
    intro c hc
    rcases List.mem_append.mp hc with h | h
    · exact hrg' c h
    · exact hgitfree c h
  refine ⟨?_, ?_, ?_⟩
  · have harg : o ++ "/".data ++ r ++ ".git".data = o ++ '/' :: (r ++ ".git".data) := by
      simp [List.append_assoc]
    rw [harg, parseRepoUrl]
    cases hm : matchGithub (o ++ '/' :: (r ++ ".git".data)) with
    | some y =>
      have h2 := matchGithub_some_count hm
      rw [count_slash_single ho' hrg'] at h2
      omega
    | none =>
      rw [matchBare_eq o (r ++ ".git".data) ho ho' hrg hrg']
      have hstrip : stripDotGit (r ++ ['.', 'g', 'i', 't']) = r := stripDotGit_append_git r
      simp only [hstrip]
  · have harg : o ++ "/".data ++ r ++ ".git".data ++ ".git".data =
        o ++ '/' :: (r ++ ".git".data ++ ".git".data) := by
      simp [List.append_assoc]
    rw [harg, parseRepoUrl]
    cases hm : matchGithub (o ++ '/' :: (r ++ ".git".data ++ ".git".data)) with
    | some y =>
      have h2 := matchGithub_some_count hm
      rw [count_slash_single ho' hrgg'] at h2
      omega
    | none =>
      rw [matchBare_eq o (r ++ ".git".data ++ ".git".data) ho ho' (by simp) hrgg']
      have hstrip : stripDotGit (r ++ ['.', 'g', 'i', 't'] ++ ['.', 'g', 'i', 't']) =
          r ++ ['.', 'g', 'i', 't'] := stripDotGit_append_git (r ++ ['.', 'g', 'i', 't'])
      simp only [hstrip]
  · intro hgit hr
    have harg : o ++ "/".data ++ r = o ++ '/' :: r := by
      simp [List.append_assoc]
    rw [harg, parseRepoUrl]
    cases hm : matchGithub (o ++ '/' :: r) with
    | some y =>
      have h2 := matchGithub_some_count hm
      rw [count_slash_single ho' hr'] at h2
      omega
    | none =>
      rw [matchBare_eq o r ho ho' hr hr']
      simp only [stripDotGit_no_suffix hgit]

/-- Witness for **C10**: `acme/widgets.git` parses to repo `widgets`;
`acme/widgets.git.git` keeps one `.git`. -/
theorem parseRepoUrl_strips_dot_git_witness :
    parseRepoUrl "acme/widgets.git".data =
      some ⟨"acme".data, "widgets".data, "main".data⟩ ∧
    parseRepoUrl "acme/widgets.git.git".data =
      some ⟨"acme".data, "widgets.git".data, "main".data⟩ := by
  have h := parseRepoUrl_strips_dot_git "acme".data "widgets".data
    (by decide) (by decide) (by decide)
  exact ⟨h.1, h.2.1⟩

/-! ## Characterization of all accepted inputs (C6) -/

/-- Restates, for the amended C6, the input shapes on which the first,
*unanchored* pattern matches: the input merely has to *contain*
`github.com/` followed by a nonempty slash-free run, a slash, and at least
one further non-slash character — it need not be a URL at all. -/
def ContainsGithubRef (url : List Char) : Prop :=
  ∃ (l o t : List Char) (c : Char),
    url = l ++ ghLit ++ o ++ '/' :: c :: t ∧ o ≠ [] ∧ (∀ ch ∈ o, ch ≠ '/') ∧ c ≠ '/'

/-- Restates, for the amended C6, the inputs accepted by the anchored bare
`owner/repo` pattern: exactly one slash with nonempty slash-free sides. -/
def BareRef (url : List Char) : Prop :=
  ∃ (a b : List Char), url = a ++ '/' :: b ∧ a ≠ [] ∧ b ≠ [] ∧
    (∀ c ∈ a, c ≠ '/') ∧ (∀ c ∈ b, c ≠ '/')

theorem matchGithubAt_some_of_shape {o : List Char} {c : Char} (t : List Char)
    (ho : o ≠ []) (ho' : ∀ ch ∈ o, ch ≠ '/') (hc : c ≠ '/') :
    ∃ x, matchGithubAt (ghLit ++ (o ++ '/' :: c :: t)) = some x := by
  rw [matchGithubAt, if_pos (ghLit_isPre_append _)]
  simp only [List.drop_left, takeWhile_append_slash _ ho']
  rw [if_neg (by simpa [List.isEmpty_iff] using ho)]
  simp only [if_true]
  have hbne : (c != '/') = true := by simpa using hc
  rw [List.takeWhile_cons, if_pos hbne]
  rw [if_neg (by simp : ¬((c :: List.takeWhile (fun ch => ch != '/') t).isEmpty = true))]
  exact ⟨_, rfl⟩

theorem matchGithub_isSome_of_suffix :
    ∀ {s t : List Char} {x : List Char × List Char × Option (List Char)},
    t <:+ s → matchGithubAt t = some x → ∃ y, matchGithub s = some y
  | [], t, x, hts, hat => by
    rw [List.suffix_nil.mp hts] at hat
    rw [show matchGithubAt [] = none from rfl] at hat
    exact absurd hat (by simp)
  | c :: s', t, x, hts, hat => by
    rcases List.suffix_cons_iff.mp hts with h | h
    · subst h
      refine ⟨x, ?_⟩
      show (matchGithubAt (c :: s')).orElse (fun _ => matchGithub s') = some x
      rw [hat]
      rfl
    · obtain ⟨y, hy⟩ := matchGithub_isSome_of_suffix h hat
      show ∃ y, (matchGithubAt (c :: s')).orElse (fun _ => matchGithub s') = some y
      cases hat2 : matchGithubAt (c :: s') with
      | some z => exact ⟨z, rfl⟩
      | none => exact ⟨y, by simpa [Option.orElse] using hy⟩

/-- Decomposition of a successful `matchGithubAt`. -/
theorem matchGithubAt_some_shape {t : List Char}
    {x : List Char × List Char × Option (List Char)}
    (h : matchGithubAt t = some x) :
    ∃ (o t' : List Char) (c : Char),
      t = ghLit ++ o ++ '/' :: c :: t' ∧ o ≠ [] ∧ (∀ ch ∈ o, ch ≠ '/') ∧ c ≠ '/' := by
  rw [matchGithubAt] at h
  by_cases hp : ghLit.isPrefixOf t
  case neg => rw [if_neg hp] at h; exact absurd h (by simp)
  rw [if_pos hp] at h
  obtain ⟨tail, htail⟩ := List.isPrefixOf_iff_prefix.mp hp
  have hrest : t.drop ghLit.length = tail := by rw [← htail, List.drop_left]
  rw [hrest] at h
  set g1 := tail.takeWhile (fun c => c != '/') with hg1def
  by_cases hg1 : g1.isEmpty
  · rw [if_pos hg1] at h; exact absurd h (by simp)
  rw [if_neg hg1] at h
  cases hdrop : tail.drop g1.length with
  | nil => rw [hdrop] at h; exact absurd h (by simp)
  | cons c rest2 =>
    rw [hdrop] at h
    simp only [] at h
    by_cases hc : c = '/'
    case neg => rw [if_neg hc] at h; exact absurd h (by simp)
    subst hc
    by_cases hg2 : (rest2.takeWhile (fun c => c != '/')).isEmpty
    · rw [if_pos hg2] at h; exact absurd h (by simp)
    cases rest2 with
    | nil => exact absurd rfl hg2
    | cons c2 t2 =>
      have hc2 : c2 ≠ '/' := by
        by_contra hc2
        rw [List.takeWhile_cons, if_neg (by simpa using hc2)] at hg2
        exact hg2 rfl
      have htail2 : tail = g1 ++ '/' :: c2 :: t2 := by
        conv_lhs => rw [← List.take_append_drop g1.length tail]
        rw [hdrop]
        congr 1
        rw [hg1def]
        exact (List.prefix_iff_eq_take.mp (List.takeWhile_prefix _)).symm
      refine ⟨g1, t2, c2, ?_, by simpa [List.isEmpty_iff] using hg1, ?_, hc2⟩
      · rw [← htail, htail2, List.append_assoc]
      · intro ch hch
        have := List.mem_takeWhile_imp hch
        simpa using this

/-- Sufficient condition: a successful scan yields a matching suffix. -/
theorem matchGithub_some_suffix :
    ∀ {s : List Char} {x : List Char × List Char × Option (List Char)},
    matchGithub s = some x → ∃ t, t <:+ s ∧ matchGithubAt t = some x
  | [], x, h => by
    rw [show matchGithub [] = none from rfl] at h
    exact absurd h (by simp)
  | c :: s', x, h => by
    rw [show matchGithub (c :: s') =
      (matchGithubAt (c :: s')).orElse (fun _ => matchGithub s') from rfl] at h
    cases hat : matchGithubAt (c :: s') with
    | some y =>
      rw [hat] at h
      simp only [Option.orElse, Option.some_orElse] at h
      exact ⟨c :: s', List.suffix_refl _, by rw [hat, h]⟩
    | none =>
      rw [hat] at h
      simp only [Option.orElse, Option.none_orElse] at h
      obtain ⟨t, ht, hat2⟩ := matchGithub_some_suffix h
      exact ⟨t, ht.trans (List.suffix_cons c s'), hat2⟩

/-- Decomposition of a successful `matchBare`. -/
theorem matchBare_some_shape {s : List Char} {x : List Char × List Char}
    (h : matchBare s = some x) : BareRef s := by
  rw [matchBare] at h
  set g1 := s.takeWhile (fun c => c != '/') with hg1def
  by_cases hg1 : g1.isEmpty
  · rw [if_pos hg1] at h; exact absurd h (by simp)
  rw [if_neg hg1] at h
  cases hdrop : s.drop g1.length with
  | nil => rw [hdrop] at h; exact absurd h (by simp)
  | cons c rest =>
    rw [hdrop] at h
    simp only [] at h
    by_cases hc : c = '/'
    case neg => rw [if_neg hc] at h; exact absurd h (by simp)
    subst hc
    by_cases hrest : rest.isEmpty
    · rw [if_pos hrest] at h; exact absurd h (by simp)
    by_cases hall : rest.all (fun c => c != '/')
    case neg => rw [if_pos rfl, if_neg hrest, if_neg hall] at h; exact absurd h (by simp)
    have hs : s = g1 ++ '/' :: rest := by
      conv_lhs => rw [← List.take_append_drop g1.length s]
      rw [hdrop]
      congr 1
      rw [hg1def]
      exact (List.prefix_iff_eq_take.mp (List.takeWhile_prefix _)).symm
    refine ⟨g1, rest, hs, by simpa [List.isEmpty_iff] using hg1,
      by simpa [List.isEmpty_iff] using hrest, ?_, ?_⟩
    · intro ch hch
      have := List.mem_takeWhile_imp (hg1def ▸ hch)
      simpa using this
    · intro ch hch
      have := List.all_eq_true.mp hall ch hch
      simpa using this

/-- **C6 amended** (corrected).  `parseRepoUrl` returns `null` exactly when
the input neither *contains* a `github.com/owner/repo…` occurrence (the
first pattern is an unanchored substring match, so any input containing one
— a sentence, a longer URL — produces a `RepoInfo`) nor is a bare
single-slash `owner/repo` shorthand. -/
theorem parseRepoUrl_none_characterization (url : List Char) :
    parseRepoUrl url = none ↔ ¬ ContainsGithubRef url ∧ ¬ BareRef url := by
  constructor
  · intro h
    have hmg : matchGithub url = none := by
      rw [parseRepoUrl] at h
      cases hm : matchGithub url with
      | some y => rw [hm] at h; simp at h
      | none => rfl
    have hmb : matchBare url = none := by
      rw [parseRepoUrl, hmg] at h
      cases hb : matchBare url with
      | some y => rw [hb] at h; simp at h
      | none => rfl
    constructor
    · rintro ⟨l, o, t, c, hurl, ho, ho', hc⟩
      obtain ⟨x, hx⟩ := matchGithubAt_some_of_shape t ho ho' hc
      have hsuf : ghLit ++ (o ++ '/' :: c :: t) <:+ url :=
        ⟨l, by rw [hurl]; simp [List.append_assoc]⟩
      obtain ⟨y, hy⟩ := matchGithub_isSome_of_suffix hsuf hx
      rw [hmg] at hy
      exact absurd hy (by simp)
    · rintro ⟨a, b, hurl, ha, hb, ha', hb'⟩
      rw [hurl, matchBare_eq a b ha ha' hb hb'] at hmb
      exact absurd hmb (by simp)
  · rintro ⟨h1, h2⟩
    rw [parseRepoUrl]
    cases hm : matchGithub url with
    | some x =>
      obtain ⟨t, hts, hat⟩ := matchGithub_some_suffix hm
      obtain ⟨o, t', c, hteq, ho, ho', hc⟩ := matchGithubAt_some_shape hat
      obtain ⟨pre, hpre⟩ := hts
      exact absurd ⟨pre, o, t', c, by rw [← hpre, hteq]; simp [List.append_assoc],
        ho, ho', hc⟩ h1
    | none =>
      cases hb : matchBare url with
      | some x => exact absurd (matchBare_some_shape hb) h2
      | none => rfl

set_option maxRecDepth 400000 in
/-- Counterexample for **C6** as stated: the input
`see github.com/a/b for details` is neither a full host URL nor a bare
`owner/repo` shorthand, yet `parseRepoUrl` produces a `RepoInfo` (the first
pattern matches the embedded substring, group 2 greedily swallowing
`b for details`). -/
theorem parseRepoUrl_unanchored_cex :
    parseRepoUrl "see github.com/a/b for details".data =
      some ⟨"a".data, "b for details".data, "main".data⟩ := by decide

/-! ## The sort comparator (C8) -/

theorem charListLe_total : ∀ (a b : List Char),
    charListLe a b = true ∨ charListLe b a = true
  | [], _ => Or.inl rfl
  | _ :: _, [] => Or.inr rfl
  | a :: as, b :: bs => by
    rcases lt_trichotomy a b with h | h | h
    · left; simp [charListLe, h]
    · subst h
      rcases charListLe_total as bs with ih | ih
      · left; simp [charListLe, ih]
      · right; simp [charListLe, ih]
    · right; simp [charListLe, h]

theorem charListLe_trans : ∀ {a b c : List Char},
    charListLe a b = true → charListLe b c = true → charListLe a c = true
  | [], _, _, _, _ => rfl
  | _ :: _, [], _, hab, _ => by simp [charListLe] at hab
  | _ :: _, _ :: _, [], _, hbc => by simp [charListLe] at hbc
  | a :: as, b :: bs, c :: cs, hab, hbc => by
    rw [charListLe] at hab hbc ⊢
    by_cases h1 : a < b
    · by_cases h2 : b < c
      · rw [if_pos (h1.trans h2)]
      · by_cases h3 : c < b
        · rw [if_neg h2, if_pos h3] at hbc
          exact absurd hbc (by simp)
        · have hbc' : b = c := le_antisymm (not_lt.mp h3) (not_lt.mp h2)
          subst hbc'
          rw [if_pos h1]
    · by_cases h4 : b < a
      · rw [if_neg h1, if_pos h4] at hab
        exact absurd hab (by simp)
      · have hab' : a = b := le_antisymm (not_lt.mp h4) (not_lt.mp h1)
        subst hab'
        rw [if_neg h1, if_neg h4] at hab
        by_cases h2 : a < c
        · rw [if_pos h2]
        · by_cases h3 : c < a
          · rw [if_neg h2, if_pos h3] at hbc
            exact absurd hbc (by simp)
          · rw [if_neg h2, if_neg h3] at hbc ⊢
            exact charListLe_trans hab hbc

theorem charListLe_iff : ∀ (a b : List Char),
    charListLe a b = true ↔ charListLt a b = true ∨ a = b
  | [], [] => by simp [charListLe, charListLt]
  | [], _ :: _ => by simp [charListLe, charListLt]
  | _ :: _, [] => by simp [charListLe, charListLt]
  | a :: as, b :: bs => by
    rw [charListLe, charListLt]
    by_cases h1 : a < b
    · simp [h1]
    · by_cases h2 : b < a
      · have hne : a ≠ b := ne_of_gt h2
        simp [h1, h2, hne]
      · have hab : a = b := le_antisymm (not_lt.mp h2) (not_lt.mp h1)
        subst hab
        simp only [if_neg h1, if_neg h2]
        rw [charListLe_iff as bs]
        simp

theorem charListLt_asymm : ∀ {a b : List Char},
    charListLt a b = true → charListLt b a = true → False
  | [], [], hab, _ => by simp [charListLt] at hab
  | [], _ :: _, _, hba => by simp [charListLt] at hba
  | _ :: _, [], hab, _ => by simp [charListLt] at hab
  | a :: as, b :: bs, hab, hba => by
    rw [charListLt] at hab hba
    by_cases h1 : a < b
    · rw [if_neg (asymm h1), if_pos h1] at hba
      exact absurd hba (by simp)
    · by_cases h2 : b < a
      · rw [if_neg h1, if_pos h2] at hab
        exact absurd hab (by simp)
      · rw [if_neg h1, if_neg h2] at hab
        rw [if_neg h2, if_neg h1] at hba
        exact charListLt_asymm hab hba

/-- The sorted output of `sortFiles` (stable sort by `path`). -/
theorem sortFiles_sorted (files : List GitHubFile) :
    List.Sorted (fun a b => charListLe a.path b.path = true) (sortFiles files) := by
  haveI : IsTotal GitHubFile (fun a b => charListLe a.path b.path = true) :=
    ⟨fun a b => charListLe_total a.path b.path⟩
  haveI : IsTrans GitHubFile (fun a b => charListLe a.path b.path = true) :=
    ⟨fun _ _ _ => charListLe_trans⟩
  exact List.sorted_insertionSort _ files

/-- With pairwise-distinct paths, sortedness upgrades to the antisymmetric
relation `path-strictly-less-or-equal-entry`. -/
theorem sorted_upgrade {l : List GitHubFile}
    (hd : ∀ f ∈ l, ∀ g ∈ l, f.path = g.path → f = g)
    (hs : List.Sorted (fun a b => charListLe a.path b.path = true) l) :
    List.Sorted (fun a b => charListLt a.path b.path = true ∨ a = b) l := by
  induction l with
  | nil => exact List.sorted_nil
  | cons a t ih =>
    rw [List.sorted_cons] at hs ⊢
    refine ⟨?_, ih (fun f hf g hg => hd f (List.mem_cons_of_mem a hf)
      g (List.mem_cons_of_mem a hg)) hs.2⟩
    intro b hb
    rcases (charListLe_iff a.path b.path).mp (hs.1 b hb) with h | h
    · exact Or.inl h
    · exact Or.inr (hd a (List.mem_cons_self a t) b (List.mem_cons_of_mem a hb) h)

/-- **C8 amended** (corrected).  `buildTree` is deterministic and — on entry
lists with pairwise-distinct paths — order-independent: every permutation of
the input yields an identical node registry and an identical tree.  (With
duplicated paths the stable sort preserves the input order of the
duplicates, and only the first occurrence creates the node, so permutation
invariance genuinely requires the distinctness hypothesis.) -/
theorem buildTree_perm_invariant (E E' : List GitHubFile)
    (hperm : List.Perm E' E)
    (hd : ∀ f ∈ E, ∀ g ∈ E, f.path = g.path → f = g) :
    buildTreeState E' = buildTreeState E ∧ buildTree E' = buildTree E := by
  haveI : IsAntisymm GitHubFile (fun a b => charListLt a.path b.path = true ∨ a = b) := by
    constructor
    intro a b hab hba
    rcases hab with h1 | h1
    · rcases hba with h2 | h2
      · exact absurd (charListLt_asymm h1 h2) (fun h => h)
      · exact h2.symm
    · exact h1
  have hmemE' : ∀ f ∈ sortFiles E', f ∈ E := by
    intro f hf
    rw [sortFiles] at hf
    simp only [List.mem_insertionSort] at hf
    exact hperm.subset hf
  have hmemE : ∀ f ∈ sortFiles E, f ∈ E := by
    intro f hf
    rw [sortFiles] at hf
    simpa using hf
  have hsort : sortFiles E' = sortFiles E := by
    apply List.eq_of_perm_of_sorted
      (r := fun a b => charListLt a.path b.path = true ∨ a = b)
    · exact ((List.perm_insertionSort _ E').trans hperm).trans
        (List.perm_insertionSort _ E).symm
    · exact sorted_upgrade
        (fun f hf g hg => hd f (hmemE' f hf) g (hmemE' g hg))
        (sortFiles_sorted E')
    · exact sorted_upgrade
        (fun f hf g hg => hd f (hmemE f hf) g (hmemE g hg))
        (sortFiles_sorted E)
  have hst : buildTreeState E' = buildTreeState E := by
    rw [buildTreeState, buildTreeState, hsort]
  exact ⟨hst, by simp only [buildTree, hst]⟩

/-- Witness for **C8 amended**: swapping two distinct-path entries yields the
same state and tree. -/
theorem buildTree_perm_invariant_witness :
    buildTreeState [fileB, fileA] = buildTreeState [fileA, fileB] ∧
    buildTree [fileB, fileA] = buildTree [fileA, fileB] :=
  buildTree_perm_invariant [fileA, fileB] [fileB, fileA] (by decide) (by decide)

/-- Fixture: a file entry at path `a`. -/
def dupFileA : GitHubFile := ⟨"a".data, "a".data, EType.file⟩

/-- Fixture: a directory entry at the same path `a`. -/
def dupDirA : GitHubFile := ⟨"a".data, "a".data, EType.dir⟩

/-- Counterexample for **C8** as stated: with two entries sharing the path
`a` (a file entry and a dir entry), the two orders are permutations of each
other but produce different trees — the stable sort keeps the input order
and only the first entry creates the node, so the root node is a file node
in one order and a directory node in the other. -/
theorem buildTree_duplicate_path_cex :
    List.Perm [dupFileA, dupDirA] [dupDirA, dupFileA] ∧
    buildTree [dupFileA, dupDirA] ≠ buildTree [dupDirA, dupFileA] := by
  refine ⟨List.Perm.swap dupDirA dupFileA [], fun h => ?_⟩
  have h2 : List.map TreeNode.etype (buildTree [dupFileA, dupDirA]) =
      List.map TreeNode.etype (buildTree [dupDirA, dupFileA]) :=
    congrArg (List.map TreeNode.etype) h
  have h3 : List.map TreeNode.etype (buildTree [dupFileA, dupDirA]) = [EType.file] := by
    decide
  have h4 : List.map TreeNode.etype (buildTree [dupDirA, dupFileA]) = [EType.dir] := by
    decide
  rw [h3, h4] at h2
  exact absurd h2 (by decide)

/-! ## Infrastructure for C1: segments and joins -/

/-- The segment list of an entry's path, as computed by `buildTree`
(`file.path.split('/')`). -/
def segs (f : GitHubFile) : List (List Char) :=
  splitOnChar '/' f.path

/-- Well-formed segment lists: no empty segment, no slash inside a segment.
The second conjunct always holds for `splitOnChar '/'` output; the first
fails only for paths with leading/trailing/double slashes. -/
def goodSegs (parts : List (List Char)) : Prop :=
  [] ∉ parts ∧ ∀ s ∈ parts, '/' ∉ s

instance : DecidablePred goodSegs := fun parts => by
  unfold goodSegs
  infer_instance

/-- Pieces of `splitOnChar sep` never contain the separator. -/
theorem splitOnChar_sep_not_mem (sep : Char) :
    ∀ (s : List Char), ∀ g ∈ splitOnChar sep s, sep ∉ g
  | [], g, hg => by
    simp only [splitOnChar, List.mem_singleton] at hg
    subst hg
    exact List.not_mem_nil sep
  | c :: rest, g, hg => by
    by_cases hc : c = sep
    · rw [splitOnChar, if_pos hc] at hg
      rcases List.mem_cons.mp hg with h | h
      · subst h; exact List.not_mem_nil sep
      · exact splitOnChar_sep_not_mem sep rest g h
    · rw [splitOnChar, if_neg hc] at hg
      cases hsp : splitOnChar sep rest with
      | nil => exact absurd hsp (splitOnChar_ne_nil sep rest)
      | cons g0 gs =>
        rw [hsp] at hg
        simp only [] at hg
        rcases List.mem_cons.mp hg with h | h
        · subst h
          intro hmem
          rcases List.mem_cons.mp hmem with h' | h'
          · exact hc h'.symm
          · exact splitOnChar_sep_not_mem sep rest g0 (hsp ▸ List.mem_cons_self g0 gs) h'
        · exact splitOnChar_sep_not_mem sep rest g (hsp ▸ List.mem_cons_of_mem g0 h)

/-- Joining the pieces of a split with the separator gives back the input
(`joinSegs` is a `'/'`-join). -/
theorem joinSegs_splitOnChar : ∀ (s : List Char), joinSegs (splitOnChar '/' s) = s
  | [] => rfl
  | c :: rest => by
    by_cases hc : c = '/'
    · subst hc
      rw [splitOnChar, if_pos rfl]
      cases hsp : splitOnChar '/' rest with
      | nil => exact absurd hsp (splitOnChar_ne_nil '/' rest)
      | cons g gs =>
        rw [show joinSegs ([] :: g :: gs) = [] ++ '/' :: joinSegs (g :: gs) from rfl]
        rw [← hsp, joinSegs_splitOnChar rest]
        rfl
    · rw [splitOnChar, if_neg hc]
      cases hsp : splitOnChar '/' rest with
      | nil => exact absurd hsp (splitOnChar_ne_nil '/' rest)
      | cons g gs =>
        simp only []
        cases gs with
        | nil =>
          have h2 := joinSegs_splitOnChar rest
          rw [hsp] at h2
          have hg : g = rest := h2
          rw [show joinSegs [c :: g] = c :: g from rfl, hg]
        | cons g2 gs2 =>
          rw [show joinSegs ((c :: g) :: g2 :: gs2) =
            (c :: g) ++ '/' :: joinSegs (g2 :: gs2) from rfl]
          have h2 := joinSegs_splitOnChar rest
          rw [hsp] at h2
          rw [show joinSegs (g :: g2 :: gs2) = g ++ '/' :: joinSegs (g2 :: gs2) from rfl] at h2
          simp [← h2]

/-- `joinSegs` over a snoc. -/
theorem joinSegs_append_single {xs : List (List Char)} (y : List Char) (hxs : xs ≠ []) :
    joinSegs (xs ++ [y]) = joinSegs xs ++ '/' :: y := by
  induction xs with
  | nil => exact absurd rfl hxs
  | cons a t ih =>
    cases t with
    | nil => rfl
    | cons b t2 =>
      rw [show (a :: b :: t2) ++ [y] = a :: ((b :: t2) ++ [y]) from rfl]
      rw [show joinSegs (a :: ((b :: t2) ++ [y])) =
        a ++ '/' :: joinSegs ((b :: t2) ++ [y]) from rfl]
      rw [ih (by simp)]
      rw [show joinSegs (a :: b :: t2) = a ++ '/' :: joinSegs (b :: t2) from rfl]
      simp [List.append_assoc]

/-- A nonempty join of segments with a nonempty head is nonempty. -/
theorem joinSegs_cons_ne_nil {h : List Char} {t : List (List Char)} (hh : h ≠ []) :
    joinSegs (h :: t) ≠ [] := by
  cases t with
  | nil => exact hh
  | cons b t2 => simp [joinSegs]

/-- Splitting at the first separator: a `'/'`-free block before a slash is
determined by the joined string. -/
theorem append_slash_inj : ∀ {x y u v : List Char},
    '/' ∉ x → '/' ∉ y → x ++ '/' :: u = y ++ '/' :: v → x = y ∧ u = v
  | [], [], u, v, _, _, h => by simpa using h
  | [], c :: y, u, v, _, hy, h => by
    simp only [List.nil_append, List.cons_append, List.cons.injEq] at h
    exact absurd (h.1 ▸ List.mem_cons_self '/' y : '/' ∈ c :: y) hy
  | c :: x, [], u, v, hx, _, h => by
    simp only [List.nil_append, List.cons_append, List.cons.injEq] at h
    exact absurd (h.1.symm ▸ List.mem_cons_self '/' x : '/' ∈ c :: x) hx
  | c :: x, c' :: y, u, v, hx, hy, h => by
    simp only [List.cons_append, List.cons.injEq] at h
    obtain ⟨hc, hrest⟩ := h
    have := append_slash_inj (fun hm => hx (List.mem_cons_of_mem c hm))
      (fun hm => hy (List.mem_cons_of_mem c' hm)) hrest
    exact ⟨by rw [hc, this.1], this.2⟩

/-- `joinSegs` is injective on well-formed segment lists. -/
theorem joinSegs_inj : ∀ {xs ys : List (List Char)},
    goodSegs xs → goodSegs ys → joinSegs xs = joinSegs ys → xs = ys
  | [], [], _, _, _ => rfl
  | [], y :: ys, _, hy, h => by
    cases ys with
    | nil =>
      have : y = [] := by simpa [joinSegs] using h.symm
      exact absurd (this ▸ List.mem_cons_self y [] : ([] : List Char) ∈ [y]) hy.1
    | cons y2 ys2 =>
      rw [show joinSegs (y :: y2 :: ys2) = y ++ '/' :: joinSegs (y2 :: ys2) from rfl] at h
      rw [show joinSegs ([] : List (List Char)) = [] from rfl] at h
      exact absurd h.symm (by simp)
  | x :: xs, [], hx, _, h => by
    cases xs with
    | nil =>
      have : x = [] := by simpa [joinSegs] using h
      exact absurd (this ▸ List.mem_cons_self x [] : ([] : List Char) ∈ [x]) hx.1
    | cons x2 xs2 =>
      rw [show joinSegs (x :: x2 :: xs2) = x ++ '/' :: joinSegs (x2 :: xs2) from rfl] at h
      rw [show joinSegs ([] : List (List Char)) = [] from rfl] at h
      exact absurd h (by simp)
  | x :: xs, y :: ys, hx, hy, h => by
    have hxslash : '/' ∉ x := hx.2 x (List.mem_cons_self x xs)
    have hyslash : '/' ∉ y := hy.2 y (List.mem_cons_self y ys)
    cases xs with
    | nil =>
      cases ys with
      | nil => simpa [joinSegs] using h
      | cons y2 ys2 =>
        rw [show joinSegs [x] = x from rfl,
          show joinSegs (y :: y2 :: ys2) = y ++ '/' :: joinSegs (y2 :: ys2) from rfl] at h
        exact absurd (h ▸ List.mem_append_right y (List.mem_cons_self '/' _)) hxslash
    | cons x2 xs2 =>
      cases ys with
      | nil =>
        rw [show joinSegs [y] = y from rfl,
          show joinSegs (x :: x2 :: xs2) = x ++ '/' :: joinSegs (x2 :: xs2) from rfl] at h
        exact absurd (h ▸ List.mem_append_right x (List.mem_cons_self '/' _)) hyslash
      | cons y2 ys2 =>
        rw [show joinSegs (x :: x2 :: xs2) = x ++ '/' :: joinSegs (x2 :: xs2) from rfl,
          show joinSegs (y :: y2 :: ys2) = y ++ '/' :: joinSegs (y2 :: ys2) from rfl] at h
        obtain ⟨h1, h2⟩ := append_slash_inj hxslash hyslash h
        have hx' : goodSegs (x2 :: xs2) :=
          ⟨fun hm => hx.1 (List.mem_cons_of_mem x hm),
           fun s hs => hx.2 s (List.mem_cons_of_mem x hs)⟩
        have hy' : goodSegs (y2 :: ys2) :=
          ⟨fun hm => hy.1 (List.mem_cons_of_mem y hm),
           fun s hs => hy.2 s (List.mem_cons_of_mem y hs)⟩
        rw [h1, joinSegs_inj hx' hy' h2]

theorem goodSegs_take {parts : List (List Char)} (h : goodSegs parts) (k : Nat) :
    goodSegs (parts.take k) :=
  ⟨fun hm => h.1 (List.take_subset k parts hm),
   fun s hs => h.2 s (List.take_subset k parts hs)⟩

/-- Equal prefix-joins of a well-formed segment list have equal cut
points. -/
theorem joinSegs_take_inj {parts : List (List Char)} (h : goodSegs parts)
    {i j : Nat} (hi : i ≤ parts.length) (hj : j ≤ parts.length)
    (heq : joinSegs (parts.take i) = joinSegs (parts.take j)) : i = j := by
  have := joinSegs_inj (goodSegs_take h i) (goodSegs_take h j) heq
  have hlen := congrArg List.length this
  simp only [List.length_take] at hlen
  omega

/-- One step of the index/`currentPath` bookkeeping. -/
theorem take_drop_step {α : Type} : ∀ {l : List α} {i : Nat} {p : α} {r : List α},
    l.drop i = p :: r → l.take (i + 1) = l.take i ++ [p] ∧ l.drop (i + 1) = r
  | [], i, p, r, h => by simp at h
  | a :: t, 0, p, r, h => by
    simp only [List.drop_zero] at h
    injection h with h1 h2
    subst h1
    subst h2
    exact ⟨rfl, rfl⟩
  | a :: t, i + 1, p, r, h => by
    rw [List.drop_succ_cons] at h
    obtain ⟨h1, h2⟩ := take_drop_step h
    constructor
    · rw [List.take_succ_cons, List.take_succ_cons, h1]
      rfl
    · rw [List.drop_succ_cons]
      exact h2

/-- Under well-formed segments, the JS `currentPath` update coincides with
the prefix join. -/
theorem stepPath_join {parts : List (List Char)} (hgood : goodSegs parts)
    {index : Nat} {part : List Char} {rest : List (List Char)}
    (hdrop : parts.drop index = part :: rest) :
    stepPath (joinSegs (parts.take index)) part = joinSegs (parts.take (index + 1)) := by
  have hstep := take_drop_step hdrop
  cases hi : index with
  | zero =>
    subst hi
    rw [show parts.take 0 = [] from rfl]
    rw [show joinSegs ([] : List (List Char)) = [] from rfl]
    rw [stepPath, if_pos rfl, hstep.1]
    rfl
  | succ i0 =>
    subst hi
    have hlt : i0 + 1 < parts.length := by
      have := congrArg List.length hdrop
      simp only [List.length_drop, List.length_cons] at this
      omega
    have htk : parts.take (i0 + 1) ≠ [] := by
      intro h
      have := congrArg List.length h
      simp only [List.length_take, List.length_nil] at this
      omega
    have hne : joinSegs (parts.take (i0 + 1)) ≠ [] := by
      cases htk2 : parts.take (i0 + 1) with
      | nil => exact absurd htk2 htk
      | cons h0 t0 =>
        apply joinSegs_cons_ne_nil
        intro h0nil
        exact (goodSegs_take hgood (i0 + 1)).1 (htk2 ▸ h0nil ▸ List.mem_cons_self h0 t0)
    rw [stepPath, if_neg hne, hstep.1, joinSegs_append_single part htk]

/-! ## Infrastructure for C1: registry lookups -/

theorem mapLookup_append_of_some : ∀ {m : List (List Char × NodeData)}
    (m' : List (List Char × NodeData)) {p : List Char} {d : NodeData},
    mapLookup m p = some d → mapLookup (m ++ m') p = some d
  | [], _, _, _, h => by rw [mapLookup] at h; exact absurd h (by simp)
  | (q, dd) :: rest, m', p, d, h => by
    rw [mapLookup] at h
    rw [List.cons_append, mapLookup]
    by_cases hq : q = p
    · rw [if_pos hq] at h ⊢; exact h
    · rw [if_neg hq] at h ⊢; exact mapLookup_append_of_some m' h

theorem mapLookup_append_of_none : ∀ {m : List (List Char × NodeData)}
    {k : List Char} {d0 : NodeData} {p : List Char},
    mapLookup m p = none →
    mapLookup (m ++ [(k, d0)]) p = if k = p then some d0 else none
  | [], _, _, _, _ => by simp [mapLookup]
  | (q, dd) :: rest, k, d0, p, h => by
    rw [mapLookup] at h
    rw [List.cons_append, mapLookup]
    by_cases hq : q = p
    · rw [if_pos hq] at h; exact absurd h (by simp)
    · rw [if_neg hq] at h ⊢; exact mapLookup_append_of_none h

theorem mapLookup_mapVal (F : List Char → NodeData → NodeData) :
    ∀ (m : List (List Char × NodeData)) (p : List Char),
    mapLookup (m.map fun kv => (kv.1, F kv.1 kv.2)) p = (mapLookup m p).map (F p)
  | [], _ => rfl
  | (q, dd) :: rest, p => by
    rw [List.map_cons, mapLookup, mapLookup]
    by_cases hq : q = p
    · subst hq
      simp
    · rw [if_neg hq, if_neg hq]
      exact mapLookup_mapVal F rest p

theorem pushChild_eq_mapVal (m : List (List Char × NodeData)) (par c : List Char) :
    pushChild m par c = m.map fun kv =>
      (kv.1, if kv.1 = par then { kv.2 with children := kv.2.children ++ [c] } else kv.2) := by
  rw [pushChild]
  apply List.map_congr_left
  intro kv _
  by_cases hq : kv.1 = par
  · rw [if_pos hq, if_pos hq]
  · rw [if_neg hq, if_neg hq]

theorem mapLookup_pushChild (m : List (List Char × NodeData)) (par c p : List Char) :
    mapLookup (pushChild m par c) p =
      (mapLookup m p).map fun d =>
        if p = par then { d with children := d.children ++ [c] } else d := by
  rw [pushChild_eq_mapVal,
    mapLookup_mapVal (fun k d => if k = par then { d with children := d.children ++ [c] } else d)]

/-- Every registered node is reachable: it is a root or a child of a
registered node. -/
def Rooted (st : BuildState) : Prop :=
  ∀ p, (mapLookup st.nodeMap p).isSome →
    p ∈ st.root ∨ ∃ q d, mapLookup st.nodeMap q = some d ∧ p ∈ d.children

/-- Full specification of one `insertStep` iteration. -/
theorem insertStep_spec (g : GitHubFile) (parts : List (List Char)) (index : Nat)
    (st : BuildState) (cp : List Char) (hgood : goodSegs parts)
    (hlt : index < parts.length)
    (hcp : cp = joinSegs (parts.take (index + 1)))
    (hpar : index ≠ 0 → (mapLookup st.nodeMap (joinSegs (parts.take index))).isSome) :
    (mapLookup (insertStep g parts index cp st).nodeMap cp).isSome ∧
    (∀ p d, mapLookup st.nodeMap p = some d →
      ∃ ext, mapLookup (insertStep g parts index cp st).nodeMap p =
          some { d with children := d.children ++ ext } ∧
        (ext ≠ [] → 1 ≤ index ∧ p = joinSegs (parts.take index))) ∧
    (∀ p d', mapLookup st.nodeMap p = none →
      mapLookup (insertStep g parts index cp st).nodeMap p = some d' →
      p = cp ∧ d'.children = [] ∧
      ((index + 1 = parts.length ∧ g.type = EType.file) →
        d'.type = EType.file ∧ d'.file = some g) ∧
      (¬(index + 1 = parts.length ∧ g.type = EType.file) →
        d'.type = EType.dir ∧ d'.file = none)) ∧
    (∃ ra, (insertStep g parts index cp st).root = st.root ++ ra) ∧
    (Rooted st → Rooted (insertStep g parts index cp st)) := by
  have hiff : (index = parts.length - 1) ↔ (index + 1 = parts.length) := by omega
  by_cases hpres : (mapLookup st.nodeMap cp).isSome
  · have hst1 : insertStep g parts index cp st = st := by
      rw [insertStep, if_pos hpres]
    rw [hst1]
    refine ⟨hpres, ?_, ?_, ⟨[], by simp⟩, fun h => h⟩
    · intro p d h
      exact ⟨[], by simpa using h, fun hne => absurd rfl hne⟩
    · intro p d' hnone hsome
      rw [hnone] at hsome
      exact absurd hsome (by simp)
  · have hnone : mapLookup st.nodeMap cp = none :=
      Option.not_isSome_iff_eq_none.mp hpres
    set node : NodeData :=
      { name := parts.getD index []
        type := if index = parts.length - 1 ∧ g.type = EType.file then EType.file
          else EType.dir
        children := []
        file := if index = parts.length - 1 ∧ g.type = EType.file then some g
          else none } with hnode
    have hnodechildren : node.children = [] := rfl
    have hnodetype1 : (index + 1 = parts.length ∧ g.type = EType.file) →
        node.type = EType.file ∧ node.file = some g := by
      intro hcase
      have hcond : index = parts.length - 1 ∧ g.type = EType.file :=
        ⟨hiff.mpr hcase.1, hcase.2⟩
      simp [hnode, hcond]
    have hnodetype2 : ¬(index + 1 = parts.length ∧ g.type = EType.file) →
        node.type = EType.dir ∧ node.file = none := by
      intro hcase
      have hcond : ¬(index = parts.length - 1 ∧ g.type = EType.file) := by
        intro hh
        exact hcase ⟨hiff.mp hh.1, hh.2⟩
      simp [hnode, hcond]
    by_cases hidx : index = 0
    · have hst1 : insertStep g parts index cp st =
          { root := st.root ++ [cp], nodeMap := st.nodeMap ++ [(cp, node)] } := by
        rw [insertStep, if_neg hpres, if_pos hidx]
      rw [hst1]
      refine ⟨?_, ?_, ?_, ⟨[cp], rfl⟩, ?_⟩
      · rw [show ({ root := st.root ++ [cp], nodeMap := st.nodeMap ++ [(cp, node)] } :
          BuildState).nodeMap = st.nodeMap ++ [(cp, node)] from rfl]
        rw [mapLookup_append_of_none hnone, if_pos rfl]
        rfl
      · intro p d h
        exact ⟨[], by simpa using mapLookup_append_of_some [(cp, node)] h,
          fun hne => absurd rfl hne⟩
      · intro p d' hpn hsome
        rw [show ({ root := st.root ++ [cp], nodeMap := st.nodeMap ++ [(cp, node)] } :
          BuildState).nodeMap = st.nodeMap ++ [(cp, node)] from rfl] at hsome
        rw [mapLookup_append_of_none hpn] at hsome
        by_cases hq : cp = p
        · rw [if_pos hq] at hsome
          have hd' : d' = node := by injection hsome.symm
          subst hd'
          exact ⟨hq.symm, hnodechildren, hnodetype1, hnodetype2⟩
        · rw [if_neg hq] at hsome
          exact absurd hsome (by simp)
      · intro hroot p hp
        rw [show ({ root := st.root ++ [cp], nodeMap := st.nodeMap ++ [(cp, node)] } :
          BuildState).nodeMap = st.nodeMap ++ [(cp, node)] from rfl] at hp ⊢
        cases hlk : mapLookup st.nodeMap p with
        | some d =>
          rcases hroot p (by rw [hlk]; rfl) with h | ⟨q, dq, hq, hmem⟩
          · exact Or.inl (List.mem_append_left _ h)
          · exact Or.inr ⟨q, dq, mapLookup_append_of_some _ hq, hmem⟩
        | none =>
          rw [mapLookup_append_of_none hlk] at hp
          by_cases hq : cp = p
          · exact Or.inl (List.mem_append_right _ (hq ▸ List.mem_singleton_self cp))
          · rw [if_neg hq] at hp
            exact absurd hp (by simp)
    · have hcpne : cp ≠ joinSegs (parts.take index) := by
        rw [hcp]
        intro h
        have := joinSegs_take_inj hgood (by omega) (by omega) h
        omega
      have hst1 : insertStep g parts index cp st =
          { root := st.root,
            nodeMap := (pushChild (st.nodeMap ++ [(cp, node)])
              (joinSegs (parts.take index)) cp) } := by
        rw [insertStep, if_neg hpres, if_neg hidx]
      rw [hst1]
      set parKey := joinSegs (parts.take index) with hparKey
      refine ⟨?_, ?_, ?_, ⟨[], by simp⟩, ?_⟩
      · rw [show ({ root := st.root, nodeMap := (pushChild (st.nodeMap ++ [(cp, node)])
          parKey cp) } : BuildState).nodeMap =
          pushChild (st.nodeMap ++ [(cp, node)]) parKey cp from rfl]
        rw [mapLookup_pushChild, mapLookup_append_of_none hnone, if_pos rfl]
        simp
      · intro p d h
        rw [show ({ root := st.root, nodeMap := (pushChild (st.nodeMap ++ [(cp, node)])
          parKey cp) } : BuildState).nodeMap =
          pushChild (st.nodeMap ++ [(cp, node)]) parKey cp from rfl]
        rw [mapLookup_pushChild, mapLookup_append_of_some [(cp, node)] h]
        by_cases hp : p = parKey
        · refine ⟨[cp], ?_, fun _ => ⟨by omega, hp⟩⟩
          simp only [Option.map_some', Option.map_some, if_pos hp]
        · refine ⟨[], ?_, fun hne => absurd rfl hne⟩
          simp only [Option.map_some', Option.map_some, if_neg hp]
          simp
      · intro p d' hpn hsome
        rw [show ({ root := st.root, nodeMap := (pushChild (st.nodeMap ++ [(cp, node)])
          parKey cp) } : BuildState).nodeMap =
          pushChild (st.nodeMap ++ [(cp, node)]) parKey cp from rfl] at hsome
        rw [mapLookup_pushChild, mapLookup_append_of_none hpn] at hsome
        by_cases hq : cp = p
        · subst hq
          rw [if_pos rfl] at hsome
          simp only [Option.map_some', Option.map_some, if_neg (fun h => hcpne (hparKey ▸ h))] at hsome
          have hd' : d' = node := by injection hsome.symm
          subst hd'
          exact ⟨rfl, hnodechildren, hnodetype1, hnodetype2⟩
        · rw [if_neg hq] at hsome
          exact absurd hsome (by simp)
      · intro hroot p hp
        rw [show ({ root := st.root, nodeMap := (pushChild (st.nodeMap ++ [(cp, node)])
          parKey cp) } : BuildState).nodeMap =
          pushChild (st.nodeMap ++ [(cp, node)]) parKey cp from rfl] at hp ⊢
        rw [mapLookup_pushChild] at hp
        cases hlk : mapLookup (st.nodeMap ++ [(cp, node)]) p with
        | none => rw [hlk] at hp; exact absurd hp (by simp)
        | some d =>
          cases hlk0 : mapLookup st.nodeMap p with
          | some d0 =>
            rcases hroot p (by rw [hlk0]; rfl) with h | ⟨q, dq, hq, hmem⟩
            · exact Or.inl h
            · refine Or.inr ⟨q, (if q = parKey then { dq with children := dq.children ++ [cp] }
                else dq), ?_, ?_⟩
              · rw [mapLookup_pushChild, mapLookup_append_of_some [(cp, node)] hq]
                by_cases hqp : q = parKey
                · simp only [Option.map_some', Option.map_some, if_pos hqp, if_pos hqp]
                · simp only [Option.map_some', Option.map_some, if_neg hqp, if_neg hqp]
              · by_cases hqp : q = parKey
                · rw [if_pos hqp]
                  exact List.mem_append_left _ hmem
                · rw [if_neg hqp]
                  exact hmem
          | none =>
            rw [mapLookup_append_of_none hlk0] at hlk
            by_cases hq : cp = p
            · subst hq
              obtain ⟨dpar, hdpar⟩ := Option.isSome_iff_exists.mp (hpar hidx)
              refine Or.inr ⟨parKey, { dpar with children := dpar.children ++ [cp] }, ?_, ?_⟩
              · rw [mapLookup_pushChild, mapLookup_append_of_some [(cp, node)] hdpar]
                simp only [Option.map_some', Option.map_some, if_pos rfl, if_true]
              · exact List.mem_append_right _ (List.mem_singleton_self cp)
            · rw [if_neg hq] at hlk
              exact absurd hlk (by simp)

/-- Full specification of the segment loop `goParts`, starting at any
`index` whose prefix key is already registered (vacuous at the real entry
point `index = 0`). -/
theorem goParts_spec (g : GitHubFile) (parts : List (List Char))
    (hgood : goodSegs parts) :
    ∀ (rest : List (List Char)) (index : Nat) (st : BuildState),
    parts.drop index = rest →
    (index ≠ 0 → (mapLookup st.nodeMap (joinSegs (parts.take index))).isSome) →
    (∀ p d, mapLookup st.nodeMap p = some d →
      ∃ ext, mapLookup
          (goParts g parts rest index (joinSegs (parts.take index)) st).nodeMap p =
          some { d with children := d.children ++ ext } ∧
        (ext ≠ [] → ∃ i, 1 ≤ i ∧ i < parts.length ∧ p = joinSegs (parts.take i))) ∧
    (∀ i, index < i → i ≤ parts.length →
      (mapLookup (goParts g parts rest index (joinSegs (parts.take index)) st).nodeMap
        (joinSegs (parts.take i))).isSome) ∧
    (∀ p d', mapLookup st.nodeMap p = none →
      mapLookup (goParts g parts rest index (joinSegs (parts.take index)) st).nodeMap p =
        some d' →
      ∃ i, index < i ∧ i ≤ parts.length ∧ p = joinSegs (parts.take i) ∧
        ((i = parts.length ∧ g.type = EType.file) →
          d'.type = EType.file ∧ d'.file = some g ∧ d'.children = []) ∧
        (¬(i = parts.length ∧ g.type = EType.file) →
          d'.type = EType.dir ∧ d'.file = none)) ∧
    (∃ ra, (goParts g parts rest index (joinSegs (parts.take index)) st).root =
      st.root ++ ra) ∧
    (Rooted st → Rooted (goParts g parts rest index (joinSegs (parts.take index)) st)) := by
  intro rest
  induction rest with
  | nil =>
    intro index st hdrop _
    rw [goParts]
    refine ⟨?_, ?_, ?_, ⟨[], by simp⟩, fun h => h⟩
    · intro p d h
      exact ⟨[], by simpa using h, fun hne => absurd rfl hne⟩
    · intro i hi1 hi2
      have := congrArg List.length hdrop
      simp only [List.length_drop, List.length_nil] at this
      omega
    · intro p d' h1 h2
      rw [h1] at h2
      exact absurd h2 (by simp)
  | cons part rest' ih =>
    intro index st hdrop hcur
    obtain ⟨htake, hdrop'⟩ := take_drop_step hdrop
    have hlt : index < parts.length := by
      have := congrArg List.length hdrop
      simp only [List.length_drop, List.length_cons] at this
      omega
    have hstep : stepPath (joinSegs (parts.take index)) part =
        joinSegs (parts.take (index + 1)) := stepPath_join hgood hdrop
    obtain ⟨is1, is2, is3, is4, is5⟩ := insertStep_spec g parts index st
      (joinSegs (parts.take (index + 1))) hgood hlt rfl hcur
    obtain ⟨ih1, ih2, ih3, ih4, ih5⟩ := ih (index + 1)
      (insertStep g parts index (joinSegs (parts.take (index + 1))) st) hdrop'
      (fun _ => is1)
    rw [goParts, hstep]
    refine ⟨?_, ?_, ?_, ?_, fun hr => ih5 (is5 hr)⟩
    · intro p d h
      obtain ⟨ext1, h1', hext1⟩ := is2 p d h
      obtain ⟨ext2, h2', hext2⟩ := ih1 p _ h1'
      refine ⟨ext1 ++ ext2, ?_, ?_⟩
      · rw [h2']
        simp [List.append_assoc]
      · intro hne
        by_cases he1 : ext1 = []
        · subst he1
          simp only [List.nil_append] at hne
          exact hext2 hne
        · obtain ⟨hidx1, hp⟩ := hext1 he1
          exact ⟨index, hidx1, hlt, hp⟩
    · intro i hi1 hi2
      by_cases hieq : i = index + 1
      · subst hieq
        obtain ⟨d1, hd1⟩ := Option.isSome_iff_exists.mp is1
        obtain ⟨ext2, hfin, _⟩ := ih1 _ d1 hd1
        rw [hfin]
        rfl
      · exact ih2 i (by omega) hi2
    · intro p d' hnone hsome
      cases hlk1 : mapLookup
          (insertStep g parts index (joinSegs (parts.take (index + 1))) st).nodeMap p with
      | some d1 =>
        obtain ⟨hpcp, hch1, htp1, htp2⟩ := is3 p d1 hnone hlk1
        refine ⟨index + 1, by omega, by omega, hpcp, ?_, ?_⟩
        · rintro ⟨hlen, hfile⟩
          have hrest' : rest' = [] := by
            rw [← hdrop']
            exact List.drop_eq_nil_of_le (by omega)
          rw [hrest', goParts] at hsome
          rw [hlk1] at hsome
          have hd' : d' = d1 := by injection hsome.symm
          subst hd'
          obtain ⟨ht, hf⟩ := htp1 ⟨hlen, hfile⟩
          exact ⟨ht, hf, hch1⟩
        · intro hcase
          obtain ⟨ext2, hfin, _⟩ := ih1 p d1 hlk1
          rw [hfin] at hsome
          have hd' : d' = { d1 with children := d1.children ++ ext2 } := by
            injection hsome.symm
          subst hd'
          obtain ⟨ht, hf⟩ := htp2 hcase
          exact ⟨ht, hf⟩
      | none =>
        obtain ⟨i, hi1, hi2, hi3, hi4, hi5⟩ := ih3 p d' hlk1 hsome
        exact ⟨i, by omega, hi2, hi3, hi4, hi5⟩
    · obtain ⟨ra1, h1⟩ := is4
      obtain ⟨ra2, h2⟩ := ih4
      exact ⟨ra1 ++ ra2, by rw [h2, h1, List.append_assoc]⟩

/-! ## Infrastructure for C1: the whole-list invariant -/

/-- The keys registered after processing `F`: every nonempty prefix join of
every entry's segments. -/
def Keys (F : List GitHubFile) (p : List Char) : Prop :=
  ∃ g ∈ F, ∃ k, 0 < k ∧ k ≤ (segs g).length ∧ p = joinSegs ((segs g).take k)

/-- The registry invariant after processing the entry list `F`: key
characterization, file-node soundness and completeness, synthesized
directories at proper prefixes, and rootedness. -/
def TreeInv (F : List GitHubFile) (st : BuildState) : Prop :=
  (∀ p, (mapLookup st.nodeMap p).isSome ↔ Keys F p) ∧
  (∀ p d, mapLookup st.nodeMap p = some d → d.type = EType.file →
    ∃ g, g ∈ F ∧ g.type = EType.file ∧ p = joinSegs (segs g) ∧
      d.file = some g ∧ d.children = []) ∧
  (∀ g, g ∈ F → g.type = EType.file →
    ∃ d, mapLookup st.nodeMap (joinSegs (segs g)) = some d ∧
      d.type = EType.file ∧ d.file = some g ∧ d.children = []) ∧
  (∀ g, g ∈ F → ∀ k, 0 < k → k < (segs g).length →
    ∃ d, mapLookup st.nodeMap (joinSegs ((segs g).take k)) = some d ∧
      d.type = EType.dir) ∧
  Rooted st

/-- The well-formedness hypotheses of the amended C1: pairwise-distinct
paths, no file entry's segments a proper prefix of another entry's segments,
and no empty segments. -/
def GoodEntries (F : List GitHubFile) : Prop :=
  (∀ f ∈ F, ∀ g ∈ F, f.path = g.path → f = g) ∧
  (∀ f ∈ F, ∀ g ∈ F, f.type = EType.file → segs f <+: segs g → segs f = segs g) ∧
  (∀ f ∈ F, [] ∉ segs f)

theorem goodEntries_mono {F G : List GitHubFile} (hsub : ∀ f ∈ F, f ∈ G)
    (h : GoodEntries G) : GoodEntries F :=
  ⟨fun f hf g hg => h.1 f (hsub f hf) g (hsub g hg),
   fun f hf g hg => h.2.1 f (hsub f hf) g (hsub g hg),
   fun f hf => h.2.2 f (hsub f hf)⟩

theorem goodSegs_segs {f : GitHubFile} (h : [] ∉ segs f) : goodSegs (segs f) :=
  ⟨h, fun s hs => splitOnChar_sep_not_mem '/' f.path s hs⟩

/-- The outer induction step: processing one more entry preserves the
invariant. -/
theorem processEntry_inv (F : List GitHubFile) (g : GitHubFile) (st : BuildState)
    (hE : GoodEntries (F ++ [g])) (hinv : TreeInv F st) :
    TreeInv (F ++ [g]) (processEntry st g) := by
  obtain ⟨h1, h2, h3⟩ := hE
  obtain ⟨i1, i2, i3, i4, i5⟩ := hinv
  have hgmem : g ∈ F ++ [g] := List.mem_append_right F (List.mem_singleton_self g)
  have hFmem : ∀ f ∈ F, f ∈ F ++ [g] := fun f hf => List.mem_append_left _ hf
  have hgoodg : goodSegs (segs g) := goodSegs_segs (h3 g hgmem)
  have hnpos : 0 < (segs g).length :=
    List.length_pos.mpr (splitOnChar_ne_nil '/' g.path)
  have hpe : processEntry st g =
      goParts g (segs g) (segs g) 0 (joinSegs ((segs g).take 0)) st := rfl
  obtain ⟨ga, gb, gc, gd, ge⟩ := goParts_spec g (segs g) hgoodg (segs g) 0 st rfl
    (fun h => absurd rfl h)
  rw [hpe]
  -- any nonempty `ext` returned by the preservation clause forces a
  -- file-entry key to be a proper prefix of `g`'s — impossible
  have hextnil : ∀ (f : GitHubFile), f ∈ F ++ [g] → f.type = EType.file →
      ∀ (ext : List (List Char)),
      (ext ≠ [] → ∃ i, 1 ≤ i ∧ i < (segs g).length ∧
        joinSegs (segs f) = joinSegs ((segs g).take i)) → ext = [] := by
    intro f hf hfile ext hext
    by_contra hne
    obtain ⟨i, hi1, hi2, hp⟩ := hext hne
    have heq := joinSegs_inj (goodSegs_segs (h3 f hf)) (goodSegs_take hgoodg i) hp
    have hpre : segs f <+: segs g := heq ▸ List.take_prefix i (segs g)
    have heq2 := h2 f hf g hgmem hfile hpre
    have hlen1 := congrArg List.length heq
    have hlen2 := congrArg List.length heq2
    simp only [List.length_take] at hlen1 hlen2
    omega
  refine ⟨?_, ?_, ?_, ?_, ge i5⟩
  · intro p
    constructor
    · intro hp
      cases hlk : mapLookup st.nodeMap p with
      | some d0 =>
        obtain ⟨f, hf, k, hk⟩ := (i1 p).mp (by rw [hlk]; rfl)
        exact ⟨f, hFmem f hf, k, hk⟩
      | none =>
        obtain ⟨d, hd⟩ := Option.isSome_iff_exists.mp hp
        obtain ⟨i, hi0, hile, hpj, _, _⟩ := gc p d hlk hd
        exact ⟨g, hgmem, i, hi0, hile, hpj⟩
    · rintro ⟨f, hf, k, hk0, hkle, hpj⟩
      rcases List.mem_append.mp hf with hfF | hfg
      · have hsome := (i1 p).mpr ⟨f, hfF, k, hk0, hkle, hpj⟩
        obtain ⟨d0, hd0⟩ := Option.isSome_iff_exists.mp hsome
        obtain ⟨ext, hfin, _⟩ := ga p d0 hd0
        rw [hfin]
        rfl
      · have hfg' : f = g := List.mem_singleton.mp hfg
        subst hfg'
        rw [hpj]
        exact gb k hk0 hkle
  · intro p d hd hdfile
    cases hlk : mapLookup st.nodeMap p with
    | some d0 =>
      obtain ⟨ext, hfin, hext⟩ := ga p d0 hlk
      rw [hfin] at hd
      have hdd : d = { d0 with children := d0.children ++ ext } := by injection hd.symm
      have hd0file : d0.type = EType.file := by
        rw [hdd] at hdfile
        exact hdfile
      obtain ⟨f, hfF, hffile, hpj, hdfile0, hch0⟩ := i2 p d0 hlk hd0file
      have hextn : ext = [] := by
        apply hextnil f (hFmem f hfF) hffile ext
        intro hne
        obtain ⟨i, hi1, hi2, hpi⟩ := hext hne
        exact ⟨i, hi1, hi2, by rw [← hpj, hpi]⟩
      subst hextn
      refine ⟨f, hFmem f hfF, hffile, hpj, ?_, ?_⟩
      · rw [hdd]; exact hdfile0
      · rw [hdd]; simp [hch0]
    | none =>
      obtain ⟨d', hd'⟩ := Option.isSome_iff_exists.mp (by rw [hd]; rfl :
        (mapLookup (goParts g (segs g) (segs g) 0
          (joinSegs ((segs g).take 0)) st).nodeMap p).isSome)
      obtain ⟨i, hi0, hile, hpj, c1, c2⟩ := gc p d hlk hd
      by_cases hcase : i = (segs g).length ∧ g.type = EType.file
      · obtain ⟨ht, hfl, hch⟩ := c1 hcase
        refine ⟨g, hgmem, hcase.2, ?_, hfl, hch⟩
        rw [hpj, hcase.1, List.take_length]
      · obtain ⟨ht, _⟩ := c2 hcase
        rw [ht] at hdfile
        exact absurd hdfile (by simp)
  · intro f hf hffile
    rcases List.mem_append.mp hf with hfF | hfg
    · obtain ⟨d0, hd0, ht0, hf0, hch0⟩ := i3 f hfF hffile
      obtain ⟨ext, hfin, hext⟩ := ga _ d0 hd0
      have hextn : ext = [] := by
        apply hextnil f (hFmem f hfF) hffile ext
        intro hne
        exact hext hne
      subst hextn
      exact ⟨_, hfin, ht0, hf0, by simp [hch0]⟩
    · have hfg' : f = g := List.mem_singleton.mp hfg
      subst hfg'
      cases hlk : mapLookup st.nodeMap (joinSegs (segs f)) with
      | some d0 =>
        obtain ⟨f', hf'F, k, hk0, hkle, hpj⟩ := (i1 _).mp (by rw [hlk]; rfl)
        have heq := joinSegs_inj (goodSegs_segs (h3 f hf))
          (goodSegs_take (goodSegs_segs (h3 f' (hFmem f' hf'F))) k) hpj
        have hpre : segs f <+: segs f' := heq ▸ List.take_prefix k (segs f')
        have heq2 := h2 f hf f' (hFmem f' hf'F) hffile hpre
        have hpath : f.path = f'.path := by
          have := congrArg joinSegs heq2
          simp only [segs] at this
          rwa [joinSegs_splitOnChar, joinSegs_splitOnChar] at this
        have hff' : f = f' := h1 f hf f' (hFmem f' hf'F) hpath
        subst hff'
        obtain ⟨d1, hd1, ht1, hfl1, hch1⟩ := i3 f hf'F hffile
        obtain ⟨ext, hfin, hext⟩ := ga _ d1 hd1
        have hextn : ext = [] := by
          apply hextnil f (hFmem f hf'F) hffile ext
          intro hne
          exact hext hne
        subst hextn
        exact ⟨_, hfin, ht1, hfl1, by simp [hch1]⟩
      | none =>
        have hsome := gb (segs f).length hnpos (le_refl _)
        obtain ⟨d, hd⟩ := Option.isSome_iff_exists.mp (by
          rw [List.take_length] at hsome
          exact hsome)
        obtain ⟨i, hi0, hile, hpj, c1, c2⟩ := gc _ d hlk hd
        have hieq : i = (segs f).length := by
          have := joinSegs_take_inj (goodSegs_segs (h3 f hf))
            (i := (segs f).length) (j := i) (le_refl _) hile
            (by rw [List.take_length, ← hpj])
          omega
        obtain ⟨ht, hfl, hch⟩ := c1 ⟨hieq, hffile⟩
        exact ⟨d, hd, ht, hfl, hch⟩
  · intro f hf k hk0 hklt
    rcases List.mem_append.mp hf with hfF | hfg
    · obtain ⟨d0, hd0, ht0⟩ := i4 f hfF k hk0 hklt
      obtain ⟨ext, hfin, _⟩ := ga _ d0 hd0
      exact ⟨_, hfin, ht0⟩
    · have hfg' : f = g := List.mem_singleton.mp hfg
      subst hfg'
      cases hlk : mapLookup st.nodeMap (joinSegs ((segs f).take k)) with
      | some d0 =>
        have htd0 : d0.type = EType.dir := by
          cases htd0 : d0.type with
          | dir => rfl
          | file =>
            obtain ⟨f', hf'F, hf'file, hpj, _, _⟩ := i2 _ d0 hlk htd0
            have heq := joinSegs_inj
              (goodSegs_segs (h3 f' (hFmem f' hf'F)))
              (goodSegs_take (goodSegs_segs (h3 f hf)) k) hpj.symm
            have hpre : segs f' <+: segs f := heq ▸ List.take_prefix k (segs f)
            have heq2 := h2 f' (hFmem f' hf'F) f hf hf'file hpre
            have hlen1 := congrArg List.length heq
            have hlen2 := congrArg List.length heq2
            simp only [List.length_take] at hlen1 hlen2
            omega
        obtain ⟨ext, hfin, _⟩ := ga _ d0 hlk
        refine ⟨_, hfin, ?_⟩
        rw [show ({ d0 with children := d0.children ++ ext } : NodeData).type = d0.type
          from rfl]
        exact htd0
      | none =>
        have hsome := gb k hk0 (by omega)
        obtain ⟨d, hd⟩ := Option.isSome_iff_exists.mp hsome
        obtain ⟨i, hi0, hile, hpj, c1, c2⟩ := gc _ d hlk hd
        have hieq : i = k := by
          have := joinSegs_take_inj (goodSegs_segs (h3 f hf))
            (i := k) (j := i) (by omega) hile hpj
          omega
        have hnc : ¬(i = (segs f).length ∧ f.type = EType.file) := by
          intro hh
          omega
        obtain ⟨ht, _⟩ := c2 hnc
        exact ⟨d, hd, ht⟩

theorem treeInv_nil : TreeInv [] { root := [], nodeMap := [] } := by
  refine ⟨?_, ?_, ?_, ?_, ?_⟩
  · intro p
    constructor
    · intro h
      exact absurd h (by simp [mapLookup])
    · rintro ⟨g, hg, _⟩
      exact absurd hg (List.not_mem_nil g)
  · intro p d hd _
    exact absurd hd (by simp [mapLookup])
  · intro g hg
    exact absurd hg (List.not_mem_nil g)
  · intro g hg
    exact absurd hg (List.not_mem_nil g)
  · intro p hp
    exact absurd hp (by simp [mapLookup])

/-- The invariant holds after folding `processEntry` over any well-formed
entry list. -/
theorem foldl_processEntry_inv : ∀ (F : List GitHubFile), GoodEntries F →
    TreeInv F (F.foldl processEntry { root := [], nodeMap := [] }) := by
  intro F
  induction F using List.reverseRecOn with
  | nil =>
    intro _
    exact treeInv_nil
  | append_singleton F g ih =>
    intro hE
    rw [List.foldl_append, List.foldl_cons, List.foldl_nil]
    exact processEntry_inv F g _ hE
      (ih (goodEntries_mono (fun f hf => List.mem_append_left _ hf) hE))

theorem goodEntries_sortFiles {E : List GitHubFile} (hE : GoodEntries E) :
    GoodEntries (sortFiles E) := by
  apply goodEntries_mono _ hE
  intro f hf
  rw [sortFiles] at hf
  exact (List.perm_insertionSort _ E).subset hf

theorem mem_sortFiles {E : List GitHubFile} {f : GitHubFile} :
    f ∈ sortFiles E ↔ f ∈ E := by
  rw [sortFiles]
  exact (List.perm_insertionSort _ E).mem_iff

/-- Fixture: the spec example entry `{"a/b.txt", file}`. -/
def specFileAB : GitHubFile := ⟨"b.txt".data, "a/b.txt".data, EType.file⟩

/-- Fixture: the spec example entry `{"a/c/d.txt", file}`. -/
def specFileACD : GitHubFile := ⟨"d.txt".data, "a/c/d.txt".data, EType.file⟩

/-- Fixture: the spec example entry list. -/
def specExampleE : List GitHubFile := [specFileAB, specFileACD]

/-- Fixture: a file entry at `a/b`, whose path has `a` — `dupFileA`'s path —
as a proper segment prefix. -/
def prefixFileAB : GitHubFile := ⟨"b".data, "a/b".data, EType.file⟩

/-- **C1.** For an entry list with pairwise-distinct paths, no empty path
segments, and no file entry's segment list a proper prefix of another
entry's, the registry `buildTree` constructs over `E` satisfies: every file
entry yields a node at its path that is file-typed, carries that entry, and
is a leaf (no children); conversely every file-typed node arises this way
from a unique file entry of `E`; every proper segment prefix of any entry's
path carries a directory-typed node; and every registered node is a root or
some node's child. -/
theorem buildTree_file_nodes_spec (E : List GitHubFile)
    (hdist : ∀ f ∈ E, ∀ g ∈ E, f.path = g.path → f = g)
    (hpre : ∀ f ∈ E, ∀ g ∈ E, f.type = EType.file → segs f <+: segs g → segs f = segs g)
    (hseg : ∀ f ∈ E, [] ∉ segs f) :
    (∀ f ∈ E, f.type = EType.file →
      ∃ d, mapLookup (buildTreeState E).nodeMap f.path = some d ∧
        d.type = EType.file ∧ d.file = some f ∧ d.children = []) ∧
    (∀ p d, mapLookup (buildTreeState E).nodeMap p = some d →
      d.type = EType.file →
      ∃ f, f ∈ E ∧ f.type = EType.file ∧ p = f.path ∧
        d.file = some f ∧ d.children = []) ∧
    (∀ f ∈ E, ∀ k, 0 < k → k < (segs f).length →
      ∃ d, mapLookup (buildTreeState E).nodeMap (joinSegs ((segs f).take k)) = some d ∧
        d.type = EType.dir) ∧
    Rooted (buildTreeState E) := by
  have hgood : GoodEntries (sortFiles E) :=
    goodEntries_sortFiles ⟨hdist, hpre, hseg⟩
  obtain ⟨i1, i2, i3, i4, i5⟩ := foldl_processEntry_inv (sortFiles E) hgood
  refine ⟨?_, ?_, ?_, ?_⟩
  · intro f hf hfile
    obtain ⟨d, hd, h⟩ := i3 f (mem_sortFiles.mpr hf) hfile
    refine ⟨d, ?_, h⟩
    have hjp : joinSegs (segs f) = f.path := joinSegs_splitOnChar f.path
    rw [← hjp]
    exact hd
  · intro p d hd hfile
    obtain ⟨f, hf, hfile', hpj, hdf, hdc⟩ := i2 p d hd hfile
    refine ⟨f, mem_sortFiles.mp hf, hfile', ?_, hdf, hdc⟩
    rw [hpj]
    exact joinSegs_splitOnChar f.path
  · intro f hf k hk0 hklt
    exact i4 f (mem_sortFiles.mpr hf) k hk0 hklt
  · exact i5

/-- Counterexample for **C1** as stated (for *every* entry list): with
entries `a` (file) and `a/b` (file), the path `a` is a proper segment prefix
of `a/b`, yet the node registered at `a` is file-typed with a nonempty child
list — there is no directory node at that prefix, and the file node for the
`a` entry is not a leaf; the rendered tree's only root is that file node. -/
theorem buildTree_prefix_collision_cex :
    1 < (segs prefixFileAB).length ∧
    joinSegs ((segs prefixFileAB).take 1) = dupFileA.path ∧
    mapLookup (buildTreeState [dupFileA, prefixFileAB]).nodeMap dupFileA.path =
      some ⟨"a".data, EType.file, ["a/b".data], some dupFileA⟩ ∧
    List.map TreeNode.etype (buildTree [dupFileA, prefixFileAB]) = [EType.file] := by
  decide

theorem buildTree_file_nodes_spec_witness :
    ((∀ f ∈ specExampleE, ∀ g ∈ specExampleE, f.path = g.path → f = g) ∧
     (∀ f ∈ specExampleE, ∀ g ∈ specExampleE,
        f.type = EType.file → segs f <+: segs g → segs f = segs g) ∧
     (∀ f ∈ specExampleE, [] ∉ segs f)) ∧
    ((∀ f ∈ specExampleE, f.type = EType.file →
      ∃ d, mapLookup (buildTreeState specExampleE).nodeMap f.path = some d ∧
        d.type = EType.file ∧ d.file = some f ∧ d.children = []) ∧
    (∀ p d, mapLookup (buildTreeState specExampleE).nodeMap p = some d →
      d.type = EType.file →
      ∃ f, f ∈ specExampleE ∧ f.type = EType.file ∧ p = f.path ∧
        d.file = some f ∧ d.children = []) ∧
    (∀ f ∈ specExampleE, ∀ k, 0 < k → k < (segs f).length →
      ∃ d, mapLookup (buildTreeState specExampleE).nodeMap
          (joinSegs ((segs f).take k)) = some d ∧
        d.type = EType.dir) ∧
    Rooted (buildTreeState specExampleE)) :=
  ⟨⟨by decide, by decide, by decide⟩,
   buildTree_file_nodes_spec specExampleE (by decide) (by decide) (by decide)⟩

end RepoRetriever
